import Mathlib

/-!
# The revision index of the storage package (`storage/index.go`)

A shallow embedding of `treeIndex`, the ordered multi-version index that maps
each key to its `keyIndex` (the revision history of the key), together with
the properties of its operations `Get`, `Range`, `Put`, `Restore`,
`Tombstone`, `Compact` and `Equal`.

`index.go` uses three things that live in other files of the package tree:
the ordered container `btree.BTree`, the type `revision`, and the type
`keyIndex` with its methods.

* The container is modelled as an association list kept in ascending key
  order (`BTree`), the invariant being `BTree.WF`.
* The methods of `keyIndex` are parameters of the development (the class
  `KeyIndexOps`), so the statements about `Get`, `Range`, `Put`, `Restore`,
  `Tombstone`, `Compact` and `Equal` hold for any implementation of them.
* The statements that compare reads and compactions need the behaviour of
  `keyIndex` itself; `keyIndex` is then the history of generations that the
  specification describes, and an instance of `KeyIndexOps`.

A Go call that may panic returns an `Outcome`; a nil `end` key of `Range` is
`none`, an empty key that is not nil is `some []`.

The file ends with two small functions of the `network` packages:
`ensurePortSuffix` of `network/ssh.go` and `Update.URLs` of
`network/omaha/update.go`, over Go strings as lists of bytes.
-/

namespace storage

/-! ## Keys and their order -/

/-- A Go `[]byte` holding a key. -/
abbrev Key := List (Fin 256)

/-- The three-way lexicographic comparison `bytes.Compare` of the Go standard
library. -/
def bytesCompare : Key → Key → Ordering
  | [], [] => Ordering.eq
  | [], _ :: _ => Ordering.lt
  | _ :: _, [] => Ordering.gt
  | a :: as, b :: bs =>
    if a < b then Ordering.lt
    else if b < a then Ordering.gt
    else bytesCompare as bs

/-- Modelled from the spec: `keyIndex.Less` is missing from the sources; "key
comparison is raw lexicographic byte ordering", that is
`bytes.Compare(a, b) == -1`. -/
def Less (a b : Key) : Bool := decide (bytesCompare a b = Ordering.lt)

/-! ## Revisions and errors -/

/-- Modelled from the spec: the struct `revision` is missing from the sources;
"an ordered pair (main, sub)", whose fields `index.go` reads as `rev.main` and
`rev.sub`. -/
structure revision where
  main : Int
  sub : Int
  deriving DecidableEq, Repr

/-- The zero value `revision{}`. -/
def revision.zero : revision := ⟨0, 0⟩

/-- Modelled from the spec: the variable `ErrRevisionNotFound` is missing from
the sources; it is the spec's `NotFound`.  A non-nil Go `error` is that value
or some other one. -/
inductive error where
  | ErrRevisionNotFound
  | other (msg : String)
  deriving DecidableEq, Repr

/-- The four results `(modified, created, ver, err)` of a `get`. -/
structure GetResult where
  modified : revision
  created : revision
  ver : Int
  err : Option error
  deriving DecidableEq, Repr

/-- The outcome of a Go call that either returns or panics. -/
inductive Outcome (α : Type) where
  | returns (a : α)
  | panics (msg : String)
  deriving DecidableEq, Repr

/-! ## The methods of `keyIndex` used by the index -/

/-- The methods of `*keyIndex` that `index.go` calls, on the per-key history
`H` (a `keyIndex` without its `key` field).  The file that defines them is not
among the sources, so they are parameters.  A method with a pointer receiver
that mutates the history returns the new history. -/
class KeyIndexOps (H : Type) where
  /-- The history of `&keyIndex{key: key}`: nothing recorded yet. -/
  fresh : H
  /-- The method `put(main, sub)`. -/
  put : H → Int → Int → H
  /-- The method `restore(created, modified, ver)`. -/
  restore : H → revision → revision → Int → H
  /-- The method `get(atRev)`. -/
  get : H → Int → GetResult
  /-- The method `tombstone(main, sub)`. -/
  tombstone : H → Int → Int → H × Option error
  /-- The method `compact(atRev, available)`. -/
  compact : H → Int → Finset revision → H × Finset revision
  /-- The method `isEmpty()`. -/
  isEmpty : H → Bool
  /-- The method `equal(b)`. -/
  equal : H → H → Bool

/-! ## The ordered container -/

/-- Modelled from the spec: the vendored `btree` package is missing from the
sources; it is "an ordered map/tree structure offering ascending range
iteration with early termination support".  The items (`*keyIndex`) are kept
as key/history pairs in ascending key order. -/
abbrev BTree (H : Type) := List (Key × H)

namespace BTree

variable {H : Type} {σ : Type}

/-- Modelled from the spec: part of the missing `btree` package; the keys held
by the container, in iteration order. -/
def keys (t : BTree H) : List Key := t.map Prod.fst

/-- Modelled from the spec: the invariant of the missing `btree` package, an
"ordered map": keys strictly ascending (hence distinct). -/
def WF (t : BTree H) : Prop := (keys t).Pairwise (fun a b => Less a b = true)

instance decidableWF (t : BTree H) : Decidable (WF t) :=
  inferInstanceAs (Decidable ((keys t).Pairwise (fun a b => Less a b = true)))

/-- Modelled from the spec: part of the missing `btree` package; two keys are
the same item key when neither is `Less` than the other. -/
def same (a b : Key) : Bool := !Less a b && !Less b a

/-- Modelled from the spec: `BTree.Get`, the history stored under `key`, or
`none` for Go's `nil`. -/
def Get (t : BTree H) (key : Key) : Option H :=
  (t.find? (fun item => same item.1 key)).map Prod.snd

/-- Modelled from the spec: `BTree.ReplaceOrInsert`, ordered insertion that
replaces an item with the same key. -/
def ReplaceOrInsert : BTree H → Key × H → BTree H
  | [], item => [item]
  | x :: rest, item =>
    if Less item.1 x.1 then item :: x :: rest
    else if Less x.1 item.1 then x :: ReplaceOrInsert rest item
    else item :: rest

/-- A write through the `*keyIndex` pointer that `BTree.Get` returned: the
item stored under `key` now has history `h`. -/
def store : BTree H → Key → H → BTree H
  | [], _, _ => []
  | x :: rest, key, h =>
    if same x.1 key then (x.1, h) :: rest else x :: store rest key h

/-- Modelled from the spec: `BTree.Delete`, removing the item with the given
key and returning it, or `none` (Go's `nil`) when there is none. -/
def Delete : BTree H → Key → Option H × BTree H
  | [], _ => (none, [])
  | x :: rest, key =>
    if same x.1 key then (some x.2, rest)
    else ((Delete rest key).1, x :: (Delete rest key).2)

/-- Modelled from the spec: `BTree.Len`. -/
def Len (t : BTree H) : Nat := t.length

/-- Modelled from the spec: the iteration underlying the `Ascend` family of
the missing `btree` package, "ascending range iteration with early termination
support": the iterator is handed each item in turn with the state of the variables it closes over, may write
through the item pointer (it returns the item's history afterwards), and
stops the walk by returning `false`. -/
def iterate (iterator : Key × H → σ → H × σ × Bool) : BTree H → σ → BTree H × σ
  | [], s => ([], s)
  | item :: rest, s =>
    match iterator item s with
    | (h, s1, true) => ((item.1, h) :: (iterate iterator rest s1).1, (iterate iterator rest s1).2)
    | (h, s1, false) => ((item.1, h) :: rest, s1)

/-- Modelled from the spec: `BTree.Ascend`, the walk over every item in
ascending order. -/
def Ascend (t : BTree H) (iterator : Key × H → σ → H × σ × Bool) (s : σ) : BTree H × σ :=
  iterate iterator t s

/-- Modelled from the spec: `BTree.AscendGreaterOrEqual`, the walk over the
items that are not `Less` than the pivot, in ascending order. -/
def AscendGreaterOrEqual (t : BTree H) (pivot : Key)
    (iterator : Key × H → σ → H × σ × Bool) (s : σ) : BTree H × σ :=
  (t.filter (fun item => Less item.1 pivot) ++
      (iterate iterator (t.filter (fun item => !Less item.1 pivot)) s).1,
    (iterate iterator (t.filter (fun item => !Less item.1 pivot)) s).2)

end BTree

/-! ## The index -/

/-- The Go struct `treeIndex` (the lock is not modelled: every operation runs
under it from start to end). -/
structure treeIndex (H : Type) where
  tree : BTree H
  deriving DecidableEq

namespace treeIndex

variable {H : Type} [KeyIndexOps H]

/-- The function `newTreeIndex`. -/
def newTreeIndex : treeIndex H := ⟨[]⟩

/-- The method `treeIndex.Put`. -/
def Put (ti : treeIndex H) (key : Key) (rev : revision) : treeIndex H :=
  match BTree.Get ti.tree key with
  | none => ⟨BTree.ReplaceOrInsert ti.tree (key, KeyIndexOps.put KeyIndexOps.fresh rev.main rev.sub)⟩
  | some okeyi => ⟨BTree.store ti.tree key (KeyIndexOps.put okeyi rev.main rev.sub)⟩

/-- The method `treeIndex.Restore`. -/
def Restore (ti : treeIndex H) (key : Key) (created modified : revision) (ver : Int) :
    treeIndex H :=
  match BTree.Get ti.tree key with
  | none => ⟨BTree.ReplaceOrInsert ti.tree (key, KeyIndexOps.restore KeyIndexOps.fresh created modified ver)⟩
  | some okeyi => ⟨BTree.store ti.tree key (KeyIndexOps.put okeyi modified.main modified.sub)⟩

/-- The method `treeIndex.Get`. -/
def Get (ti : treeIndex H) (key : Key) (atRev : Int) : GetResult :=
  match BTree.Get ti.tree key with
  | none => ⟨revision.zero, revision.zero, 0, some error.ErrRevisionNotFound⟩
  | some keyi => KeyIndexOps.get keyi atRev

/-- The iterator closure of `treeIndex.Range`; its state is the pair of
result slices `(keys, revs)`. -/
def rangeIterator (endi : Key) (atRev : Int) (item : Key × H)
    (s : List Key × List revision) : H × (List Key × List revision) × Bool :=
  if !Less item.1 endi then (item.2, s, false)
  else
    let r := KeyIndexOps.get item.2 atRev
    if r.err ≠ none then (item.2, s, true)
    else (item.2, (s.1 ++ [item.1], s.2 ++ [r.modified]), true)

/-- The method `treeIndex.Range`; `end_` is `none` for a nil `end`. -/
def Range (ti : treeIndex H) (key : Key) (end_ : Option Key) (atRev : Int) :
    List Key × List revision :=
  match end_ with
  | none =>
    let r := ti.Get key atRev
    if r.err ≠ none then ([], []) else ([key], [r.modified])
  | some e => (BTree.AscendGreaterOrEqual ti.tree key (rangeIterator e atRev) ([], [])).2

/-- The items that a range scan reports according to the specification: the
stored items with `key <= k < end` in byte order whose as-of lookup at
`atRev` succeeds, in the order of the container. -/
def rangeHits (ti : treeIndex H) (key e : Key) (atRev : Int) : List (Key × H) :=
  ti.tree.filter (fun item =>
    !Less item.1 key && Less item.1 e && decide ((KeyIndexOps.get item.2 atRev).err = none))

/-- The method `treeIndex.Tombstone`: the index afterwards and the returned
error. -/
def Tombstone (ti : treeIndex H) (key : Key) (rev : revision) : treeIndex H × Option error :=
  match BTree.Get ti.tree key with
  | none => (ti, some error.ErrRevisionNotFound)
  | some ki =>
    (⟨BTree.store ti.tree key (KeyIndexOps.tombstone ki rev.main rev.sub).1⟩,
      (KeyIndexOps.tombstone ki rev.main rev.sub).2)

/-- The function `compactIndex`: the iterator closure of `Compact`; its state
is the map `available` and the slice `emptyki` (held by key). -/
def compactIndex (rev : Int) (i : Key × H) (s : Finset revision × List Key) :
    H × (Finset revision × List Key) × Bool :=
  let c := KeyIndexOps.compact i.2 rev s.1
  (c.1, (c.2, if KeyIndexOps.isEmpty c.1 then s.2 ++ [i.1] else s.2), true)

/-- The deletion loop of `Compact` over `emptyki`. -/
def deleteEmpty : BTree H → List Key → Outcome (BTree H)
  | tree, [] => Outcome.returns tree
  | tree, ki :: rest =>
    match BTree.Delete tree ki with
    | (none, _) => Outcome.panics "store.index: unexpected delete failure during compaction"
    | (some _, tree1) => deleteEmpty tree1 rest

/-- The method `treeIndex.Compact`: the index afterwards and the returned
map `available`, unless the deletion loop panics. -/
def Compact (ti : treeIndex H) (rev : Int) : Outcome (treeIndex H × Finset revision) :=
  let walk := BTree.Ascend ti.tree (compactIndex rev) ((∅ : Finset revision), ([] : List Key))
  match deleteEmpty walk.1 walk.2.2 with
  | Outcome.panics msg => Outcome.panics msg
  | Outcome.returns tree => Outcome.returns (⟨tree⟩, walk.2.1)

/-- Compaction of the stored histories as the specification words it: it
"visits every key in ascending order, invokes KeyHistory.compact on each",
every call adding to the one result set that the previous call left. -/
def compactAll (rev : Int) : BTree H → Finset revision → BTree H × Finset revision
  | [], available => ([], available)
  | item :: rest, available =>
    ((item.1, (KeyIndexOps.compact item.2 rev available).1) ::
        (compactAll rev rest (KeyIndexOps.compact item.2 rev available).2).1,
      (compactAll rev rest (KeyIndexOps.compact item.2 rev available).2).2)

/-- The iterator closure of `treeIndex.Equal`; its state is the variable
`equal`, or the panic of the type assertion on a nil item. -/
def equalIterator (b : treeIndex H) (item : Key × H) (s : Outcome Bool) :
    H × Outcome Bool × Bool :=
  match BTree.Get b.tree item.1 with
  | none => (item.2, Outcome.panics "interface conversion: btree.Item is nil, not *storage.keyIndex", false)
  | some bki =>
    if !KeyIndexOps.equal item.2 bki then (item.2, Outcome.returns false, false)
    else (item.2, s, true)

/-- The method `treeIndex.Equal`. -/
def Equal (a b : treeIndex H) : Outcome Bool :=
  if BTree.Len a.tree ≠ BTree.Len b.tree then Outcome.returns false
  else (BTree.Ascend a.tree (equalIterator b) (Outcome.returns true)).2

/-- A call of one of the operations that change the index. -/
inductive Call where
  | Put (key : Key) (rev : revision)
  | Restore (key : Key) (created modified : revision) (ver : Int)
  | Tombstone (key : Key) (rev : revision)
  | Compact (rev : Int)
  deriving DecidableEq, Repr

/-- The key that a call inserts into the index when it is not stored yet. -/
def Call.inserted : Call → Option Key
  | Call.Put key _ => some key
  | Call.Restore key _ _ _ => some key
  | Call.Tombstone _ _ => none
  | Call.Compact _ => none

/-- The main number of the revision that a call records in a history. -/
def Call.recorded : Call → Option Int
  | Call.Put _ rev => some rev.main
  | Call.Restore _ _ modified _ => some modified.main
  | Call.Tombstone _ rev => some rev.main
  | Call.Compact _ => none

/-- The revisions of a sequence of calls never decrease in their main number,
as "a monotonically increasing global counter" allocates them; `m` is the
main number of the revision recorded last. -/
def nondecreasingFrom : Int → List Call → Bool
  | _, [] => true
  | m, c :: rest =>
    match c.recorded with
    | none => nondecreasingFrom m rest
    | some r => decide (m ≤ r) && nondecreasingFrom r rest

/-- The index after one call, unless the call panics. -/
def call (ti : treeIndex H) : Call → Outcome (treeIndex H)
  | Call.Put key rev => Outcome.returns (ti.Put key rev)
  | Call.Restore key created modified ver =>
    Outcome.returns (ti.Restore key created modified ver)
  | Call.Tombstone key rev => Outcome.returns (ti.Tombstone key rev).1
  | Call.Compact rev =>
    match ti.Compact rev with
    | Outcome.returns r => Outcome.returns r.1
    | Outcome.panics msg => Outcome.panics msg

/-- The index after a sequence of calls, unless one of them panics. -/
def run : treeIndex H → List Call → Outcome (treeIndex H)
  | ti, [] => Outcome.returns ti
  | ti, c :: rest =>
    match ti.call c with
    | Outcome.returns ti1 => run ti1 rest
    | Outcome.panics msg => Outcome.panics msg

end treeIndex


/-! ## The history of one key -/

/-- Modelled from the spec: the type `generation` is missing from the sources;
"an ordered, non-empty sequence of Revisions for one key, bounded by a creation
revision and, if the key was subsequently deleted, a tombstone revision (last
element, distinguishable as a deletion marker)", with the creation revision
and the version counter that `restore` presets. -/
structure generation where
  ver : Int
  created : revision
  revs : List revision
  tombstoned : Bool
  deriving DecidableEq, Repr

namespace generation

/-- Modelled from the spec: part of `keyIndex.get` and `keyIndex.compact`,
which are missing from the sources; the revisions of the generation that are
"≤ atRev", oldest first. -/
def upTo (g : generation) (atRev : Int) : List revision :=
  g.revs.filter (fun r => decide (r.main ≤ atRev))

/-- Modelled from the spec: part of `keyIndex.get` and `keyIndex.compact`,
which are missing from the sources; "the latest revision in that generation
that is ≤ boundaryRev, if any", which for `get` is "the largest revision ≤
atRev". -/
def anchor (g : generation) (atRev : Int) : Option revision :=
  (g.upTo atRev).getLast?

/-- Modelled from the spec: part of `keyIndex.get`, which is missing from the
sources; "the 1-based ordinal position of that revision within the
generation", counted down from the version counter of the generation by the
revisions recorded after `atRev`. -/
def verAt (g : generation) (atRev : Int) : Int :=
  g.ver - ((g.revs.filter (fun r => decide (atRev < r.main))).length : Int)

/-- Modelled from the spec: part of `keyIndex.get`, which is missing from the
sources; "the key was already tombstoned at or before atRev": the generation
ended and its tombstone, the last revision, is at or before `atRev`. -/
def deletedBy (g : generation) (atRev : Int) : Bool :=
  g.tombstoned && g.revs.getLast?.any (fun r => decide (r.main ≤ atRev))

/-- Modelled from the spec: part of `keyIndex.compact`, which is missing from
the sources; "a generation entirely below boundaryRev and with no remaining
need as an anchor": it ended, and every revision of it is strictly below the
boundary. -/
def obsolete (g : generation) (boundaryRev : Int) : Bool :=
  g.tombstoned && g.revs.all (fun r => decide (r.main < boundaryRev))

/-- Modelled from the spec: part of `keyIndex.compact`, which is missing from
the sources; compaction spares a revision of a generation it keeps unless the
revision is "strictly below boundaryRev" and "other than [the] generation's
anchor". -/
def spares (g : generation) (boundaryRev : Int) (r : revision) : Bool :=
  !decide (r.main < boundaryRev) || decide (g.anchor boundaryRev = some r)

/-- Modelled from the spec: part of `keyIndex.compact`, which is missing from
the sources; the revisions that compaction at `boundaryRev` drops from a
generation it keeps. -/
def dropped (g : generation) (boundaryRev : Int) : List revision :=
  g.revs.filter (fun r => !g.spares boundaryRev r)

/-- Modelled from the spec: part of `keyIndex.compact`, which is missing from
the sources; the generation after compaction at `boundaryRev` dropped those. -/
def retain (g : generation) (boundaryRev : Int) : generation :=
  ⟨g.ver, g.created, g.revs.filter (fun r => g.spares boundaryRev r), g.tombstoned⟩

end generation

/-- Modelled from the spec: the type `keyIndex` (the spec's KeyHistory) is
missing from the sources; it "owns an ordered sequence of Generations for a
single key, oldest first". -/
structure keyIndex where
  generations : List generation
  deriving DecidableEq, Repr

namespace keyIndex

/-- Modelled from the spec: part of `keyIndex.get`, which is missing from the
sources; the result of a `get` that "fails with NotFound". -/
def notFound : GetResult := ⟨revision.zero, revision.zero, 0, some error.ErrRevisionNotFound⟩

/-- Modelled from the spec: `keyIndex.put` is missing from the sources;
"append rev to the current live generation; if none exists, start a new
generation whose creation revision is rev". -/
def putGenerations : List generation → revision → List generation
  | [], rev => [⟨1, rev, [rev], false⟩]
  | [g], rev =>
    if g.tombstoned then [g, ⟨1, rev, [rev], false⟩]
    else [{ g with ver := g.ver + 1, revs := g.revs ++ [rev] }]
  | g :: g1 :: rest, rev => g :: putGenerations (g1 :: rest) rev

/-- Modelled from the spec: `keyIndex.put` is missing from the sources; see
`putGenerations`. -/
def put (ki : keyIndex) (main sub : Int) : keyIndex :=
  ⟨putGenerations ki.generations ⟨main, sub⟩⟩

/-- Modelled from the spec: `keyIndex.restore` is missing from the sources;
it "establishes (or extends) a generation whose creation revision is created
and whose latest recorded revision is modified, with version counter ver". -/
def restoreGenerations : List generation → revision → revision → Int → List generation
  | [], created, modified, ver => [⟨ver, created, [modified], false⟩]
  | [g], created, modified, ver =>
    if g.tombstoned then [g, ⟨ver, created, [modified], false⟩]
    else [{ g with ver := ver, created := created, revs := g.revs ++ [modified] }]
  | g :: g1 :: rest, created, modified, ver =>
    g :: restoreGenerations (g1 :: rest) created modified ver

/-- Modelled from the spec: `keyIndex.restore` is missing from the sources;
see `restoreGenerations`. -/
def restore (ki : keyIndex) (created modified : revision) (ver : Int) : keyIndex :=
  ⟨restoreGenerations ki.generations created modified ver⟩

/-- Modelled from the spec: part of `keyIndex.get`, which is missing from the
sources; it "scans generations from newest to oldest" for the first one that
has a revision at or before `atRev` (the list is oldest first, so a later hit
wins). -/
def findGeneration : List generation → Int → Option generation
  | [], _ => none
  | g :: rest, atRev =>
    match findGeneration rest atRev with
    | some g1 => some g1
    | none => if (g.anchor atRev).isSome then some g else none

/-- Modelled from the spec: part of `keyIndex.get`, which is missing from the
sources; what `get` answers from the generation it settled on: NotFound when "the
key was already tombstoned at or before atRev", else "the largest revision ≤
atRev, the generation's creation revision, and the 1-based ordinal position of
that revision within the generation". -/
def answer (g : generation) (atRev : Int) : GetResult :=
  if g.deletedBy atRev then notFound
  else
    match g.anchor atRev with
    | none => notFound
    | some rev => ⟨rev, g.created, g.verAt atRev, none⟩

/-- Modelled from the spec: `keyIndex.get` is missing from the sources; it
"scans generations from newest to oldest; within the generation whose revision
range brackets atRev, returns the largest revision ≤ atRev, the generation's
creation revision, and the 1-based ordinal position of that revision within
the generation", and fails with NotFound "when atRev is older than the key's
earliest surviving revision, when the key was already tombstoned at or before
atRev, or when the key has no generation at all". -/
def get (ki : keyIndex) (atRev : Int) : GetResult :=
  match findGeneration ki.generations atRev with
  | none => notFound
  | some g => answer g atRev

/-- Modelled from the spec: `keyIndex.tombstone` is missing from the sources;
it "marks the live generation as ended at rev (appends rev as the generation's
terminal, deletion-marked entry)" and fails with NotFound "if there is no live
generation". -/
def tombstoneGenerations : List generation → revision → Option (List generation)
  | [], _ => none
  | [g], rev =>
    if g.tombstoned then none
    else some [{ g with ver := g.ver + 1, revs := g.revs ++ [rev], tombstoned := true }]
  | g :: g1 :: rest, rev => (tombstoneGenerations (g1 :: rest) rev).map (fun gs => g :: gs)

/-- Modelled from the spec: `keyIndex.tombstone` is missing from the sources;
see `tombstoneGenerations`. -/
def tombstone (ki : keyIndex) (main sub : Int) : keyIndex × Option error :=
  match tombstoneGenerations ki.generations ⟨main, sub⟩ with
  | none => (ki, some error.ErrRevisionNotFound)
  | some gs => (⟨gs⟩, none)

/-- Modelled from the spec: part of `keyIndex.compact`, which is missing from
the sources; the generations that compaction at `boundaryRev` keeps, each
without the revisions it drops. -/
def compactGenerations (gs : List generation) (boundaryRev : Int) : List generation :=
  (gs.filter (fun g => !g.obsolete boundaryRev)).map (fun g => g.retain boundaryRev)

/-- Modelled from the spec: part of `keyIndex.compact`, which is missing from
the sources; the revisions that compaction at `boundaryRev` removes from the
history: every revision of a generation dropped in its entirety, and the
revisions below the boundary, other than the anchor, of a generation that is
kept. -/
def droppedRevisions : List generation → Int → List revision
  | [], _ => []
  | g :: rest, boundaryRev =>
    (if g.obsolete boundaryRev then g.revs else g.dropped boundaryRev)
      ++ droppedRevisions rest boundaryRev

/-- Modelled from the spec: part of `keyIndex.compact`, which is missing from
the sources; the anchors that compaction at `boundaryRev` retains: of every
generation that it keeps, "the latest revision in that generation that is ≤
boundaryRev, if any". -/
def anchors : List generation → Int → List revision
  | [], _ => []
  | g :: rest, boundaryRev =>
    (if g.obsolete boundaryRev then [] else (g.anchor boundaryRev).toList)
      ++ anchors rest boundaryRev

/-- Modelled from the spec: `keyIndex.compact` is missing from the sources;
"exactly one revision per generation — the latest revision in that generation
that is ≤ boundaryRev, if any — must be retained as the anchor", "all
revisions strictly below boundaryRev other than each generation's anchor are
dropped", "a generation entirely below boundaryRev and with no remaining need
as an anchor is dropped in its entirety".  The set handed in is the kept-set
of the spec, which `index.go` names `available`: the dropped revisions are
removed "from the history and instead the anchors are inserted into the output
set the caller will spare from deletion". -/
def compact (ki : keyIndex) (boundaryRev : Int) (available : Finset revision) :
    keyIndex × Finset revision :=
  (⟨compactGenerations ki.generations boundaryRev⟩,
    available ∪ (anchors ki.generations boundaryRev).toFinset)

/-- Modelled from the spec: `keyIndex.isEmpty` is missing from the sources;
"true iff zero generations remain". -/
def isEmpty (ki : keyIndex) : Bool := ki.generations.isEmpty

/-- Modelled from the spec: `keyIndex.equal` is missing from the sources;
"deep structural equality of all generations and revisions". -/
def equal (a b : keyIndex) : Bool := decide (a = b)

/-- Modelled from the spec: the invariants of a KeyHistory that compaction
relies on: "at most one generation per key may be live, and it must be the
most recent", and "generations are contiguous in time", no revision of an
older generation coming after a revision of a newer one. -/
def WF (ki : keyIndex) : Prop :=
  ki.generations.Pairwise (fun g1 g2 =>
    g1.tombstoned = true ∧ ∀ r1 ∈ g1.revs, ∀ r2 ∈ g2.revs, r1.main ≤ r2.main)

/-- Every revision recorded in the history has a main number of at most `m`. -/
def Bounded (m : Int) (ki : keyIndex) : Prop :=
  ∀ g ∈ ki.generations, ∀ r ∈ g.revs, r.main ≤ m

instance decidableWF (ki : keyIndex) : Decidable (WF ki) :=
  inferInstanceAs (Decidable (ki.generations.Pairwise (fun (g1 g2 : generation) =>
    g1.tombstoned = true ∧ ∀ r1 ∈ g1.revs, ∀ r2 ∈ g2.revs, r1.main ≤ r2.main)))

end keyIndex

instance : KeyIndexOps keyIndex where
  fresh := ⟨[]⟩
  put := keyIndex.put
  restore := keyIndex.restore
  get := keyIndex.get
  tombstone := keyIndex.tombstone
  compact := keyIndex.compact
  isEmpty := keyIndex.isEmpty
  equal := keyIndex.equal

/-! ## Sample indices -/

/-- The key `"a"`. -/
def keyA : Key := [97]

/-- The key `"b"`. -/
def keyB : Key := [98]

/-- The key `"c"`. -/
def keyC : Key := [99]

/-- The index after `Put("a", (1,0))`, `Put("c", (2,0))`, `Put("b", (3,0))`,
`Put("a", (4,0))` and `Tombstone("b", (5,0))`. -/
def sampleIndex : treeIndex keyIndex :=
  (((((treeIndex.newTreeIndex.Put keyA ⟨1, 0⟩).Put keyC ⟨2, 0⟩).Put keyB ⟨3, 0⟩).Put
    keyA ⟨4, 0⟩).Tombstone keyB ⟨5, 0⟩).1

/-- The index after `Put("a", (1,0))` alone. -/
def onlyA : treeIndex keyIndex := treeIndex.newTreeIndex.Put keyA ⟨1, 0⟩

/-- The index after `Put("b", (1,0))` alone. -/
def onlyB : treeIndex keyIndex := treeIndex.newTreeIndex.Put keyB ⟨1, 0⟩

/-- The history of `"a"` in `sampleIndex`. -/
def sampleHistoryA : keyIndex := ⟨[⟨2, ⟨1, 0⟩, [⟨1, 0⟩, ⟨4, 0⟩], false⟩]⟩

/-- The history of `"b"` in `sampleIndex`. -/
def sampleHistoryB : keyIndex := ⟨[⟨2, ⟨3, 0⟩, [⟨3, 0⟩, ⟨5, 0⟩], true⟩]⟩

/-- The history of `"c"` in `sampleIndex`. -/
def sampleHistoryC : keyIndex := ⟨[⟨1, ⟨2, 0⟩, [⟨2, 0⟩], false⟩]⟩

/-- An index with distinct ascending keys whose histories keep the invariants
of the spec and record no revision with a main number above `m`. -/
def treeIndex.Sound (m : Int) (ti : treeIndex keyIndex) : Prop :=
  BTree.WF ti.tree ∧ ∀ item ∈ ti.tree, keyIndex.WF item.2 ∧ keyIndex.Bounded m item.2

/-- The sample index after `Compact(6)`: `"b"`, tombstoned at 5, is gone and
`"a"` keeps its anchor `(4,0)`. -/
def sampleCompacted : treeIndex keyIndex :=
  ⟨[(keyA, ⟨[⟨2, ⟨1, 0⟩, [⟨4, 0⟩], false⟩]⟩), (keyC, sampleHistoryC)]⟩

/-- A run of calls on `"a"` whose revisions decrease: `Put (3,0)`,
`Tombstone (11,0)`, `Put (1,0)`, `Tombstone (2,0)`. -/
def decreasingRun : List treeIndex.Call :=
  [treeIndex.Call.Put keyA ⟨3, 0⟩, treeIndex.Call.Tombstone keyA ⟨11, 0⟩,
    treeIndex.Call.Put keyA ⟨1, 0⟩, treeIndex.Call.Tombstone keyA ⟨2, 0⟩]

/-- The index that `decreasingRun` leaves. -/
def decreasingIndex : treeIndex keyIndex :=
  ⟨[(keyA, ⟨[⟨2, ⟨3, 0⟩, [⟨3, 0⟩, ⟨11, 0⟩], true⟩, ⟨2, ⟨1, 0⟩, [⟨1, 0⟩, ⟨2, 0⟩], true⟩]⟩)]⟩

/-- The index `decreasingIndex` after `Compact(5)`. -/
def decreasingCompacted : treeIndex keyIndex :=
  ⟨[(keyA, ⟨[⟨2, ⟨3, 0⟩, [⟨3, 0⟩, ⟨11, 0⟩], true⟩]⟩)]⟩

/-- A run of calls whose revisions never decrease. -/
def increasingRun : List treeIndex.Call :=
  [treeIndex.Call.Put keyA ⟨1, 0⟩, treeIndex.Call.Put keyB ⟨2, 0⟩,
    treeIndex.Call.Tombstone keyB ⟨3, 0⟩, treeIndex.Call.Compact 2,
    treeIndex.Call.Put keyB ⟨4, 0⟩, treeIndex.Call.Restore keyC ⟨4, 1⟩ ⟨4, 1⟩ 1]

/-- The index after `Put("b", (1,0))` and `Put("c", (2,0))`. -/
def indexBC : treeIndex keyIndex :=
  (treeIndex.newTreeIndex.Put keyB ⟨1, 0⟩).Put keyC ⟨2, 0⟩

/-- The index after `Put("a", (1,0))` and `Put("b", (3,0))`. -/
def indexAB : treeIndex keyIndex :=
  (treeIndex.newTreeIndex.Put keyA ⟨1, 0⟩).Put keyB ⟨3, 0⟩

end storage

/-! # Go strings -/

/-- A Go `string`: a sequence of bytes. -/
abbrev GoString := List (Fin 256)

namespace strings

/-- The function `strings.HasPrefix` of the Go standard library. -/
def HasPrefix (s pre : GoString) : Bool := pre.isPrefixOf s

/-- The function `strings.HasSuffix` of the Go standard library. -/
def HasSuffix (s suf : GoString) : Bool := suf.isSuffixOf s

/-- The function `strings.Contains` of the Go standard library. -/
def Contains (s substr : GoString) : Bool := decide (substr <:+: s)

/-- The scan of `strings.Count`: `skip` bytes of the instance found last are
still to be passed over. -/
def countFrom (substr : GoString) : GoString → Nat → Nat
  | [], _ => 0
  | _ :: rest, skip + 1 => countFrom substr rest skip
  | c :: rest, 0 =>
    if substr.isPrefixOf (c :: rest) then 1 + countFrom substr rest (substr.length - 1)
    else countFrom substr rest 0

/-- The function `strings.Count` of the Go standard library, for a non-empty
`substr`: the number of non-overlapping instances of `substr` in `s`. -/
def Count (s substr : GoString) : Nat := countFrom substr s 0

end strings

namespace fmt

/-- The byte of the decimal digit `d`. -/
def digit (d : Nat) : Fin 256 := ⟨48 + d % 10, by omega⟩

/-- The decimal digits of `n` in front of `acc`, most significant first;
`fuel` bounds their number. -/
def digits : Nat → Nat → GoString → GoString
  | 0, _, acc => acc
  | fuel + 1, n, acc =>
    if n / 10 = 0 then digit n :: acc
    else digits fuel (n / 10) (digit n :: acc)

/-- The verb `%d` of `fmt.Sprintf` on a Go `int`: a minus sign for a negative
number, then the decimal digits of its magnitude. -/
def decimal (n : Int) : GoString :=
  if n < 0 then 45 :: digits (n.natAbs + 1) n.natAbs []
  else digits (n.natAbs + 1) n.natAbs []

/-- The number that a string of decimal digits denotes. -/
def valueOf (s : GoString) : Nat := s.foldl (fun v c => 10 * v + (c.val - 48)) 0

end fmt

/-! # The SSH agent (`network/ssh.go`) -/

namespace network

/-- The constant `defaultPort`. -/
def defaultPort : Int := 22

/-- The function `ensurePortSuffix`; the string constants are `":"` = `[58]`,
`"["` = `[91]`, `"]"` = `[93]` and `"]:"` = `[93, 58]`. -/
def ensurePortSuffix (host : GoString) (port : Int) : GoString :=
  if !strings.Contains host [58] then host ++ [58] ++ fmt.decimal port
  else if strings.HasPrefix host [91] && strings.HasSuffix host [93] then
    host ++ [58] ++ fmt.decimal port
  else if strings.HasPrefix host [91] && strings.Contains host [93, 58] then host
  else if strings.Count host [58] > 1 then [91] ++ host ++ [93, 58] ++ fmt.decimal port
  else host

/-- The address that `SSHAgent.NewClient` dials for `host`. -/
def NewClient.addr (host : GoString) : GoString := ensurePortSuffix host defaultPort

end network

/-! # Omaha update manifests (`network/omaha/update.go`) -/

namespace omaha

/-- The struct `URL`; its declaration is in a file that is not among the
sources, `URLs` sets its field `CodeBase` and nothing else. -/
structure URL where
  CodeBase : GoString
  deriving DecidableEq, Repr

/-- The struct `Update`; the embedded struct `Manifest`, declared in a file
that is not among the sources, is the parameter `M`. -/
structure Update (M : Type) where
  XMLName : GoString × GoString
  Id : GoString
  PreviousVersion : GoString
  URL : omaha.URL
  Manifest : M
  RespectDeltaOK : Bool
  deriving DecidableEq

/-- The loop of `Update.URLs` over `range prefixes`, from index `i` on: each
round stores a pointer to a new `URL` in `urls[i]`. -/
def URLsLoop {M : Type} (u : Update M) : List GoString → Nat → List (Option URL) →
    List (Option URL)
  | [], _, urls => urls
  | p :: rest, i, urls => URLsLoop u rest (i + 1) (urls.set i (some ⟨p ++ u.URL.CodeBase⟩))

/-- The method `Update.URLs`: the receiver afterwards and the returned slice
of pointers (`none` is a nil pointer), made by `make` with one nil per
entry of `prefixes`. -/
def Update.URLs {M : Type} (u : Update M) (prefixes : List GoString) :
    Update M × List (Option omaha.URL) :=
  (u, URLsLoop u prefixes 0 (List.replicate prefixes.length none))

end omaha

namespace storage

/-! ## Properties of the key order -/

theorem bytesCompare_eq_iff (a b : Key) : bytesCompare a b = Ordering.eq ↔ a = b := by
  induction a generalizing b with
  | nil => cases b <;> simp [bytesCompare]
  | cons x xs ih =>
    cases b with
    | nil => simp [bytesCompare]
    | cons y ys =>
      simp only [bytesCompare, List.cons.injEq]
      split_ifs with h1 h2
      · simp
        intro h; exact absurd (h ▸ h1) (lt_irrefl _)
      · simp
        intro h; exact absurd (h ▸ h2) (lt_irrefl _)
      · have : x = y := le_antisymm (not_lt.mp h2) (not_lt.mp h1)
        simp [this, ih]

theorem bytesCompare_lt_iff_gt (a b : Key) :
    bytesCompare a b = Ordering.lt ↔ bytesCompare b a = Ordering.gt := by
  induction a generalizing b with
  | nil => cases b <;> simp [bytesCompare]
  | cons x xs ih =>
    cases b with
    | nil => simp [bytesCompare]
    | cons y ys =>
      simp only [bytesCompare]
      by_cases h1 : x < y
      · simp [h1, lt_asymm h1]
      · by_cases h2 : y < x
        · simp [h1, h2]
        · simp only [h1, h2, if_false]
          exact ih ys

theorem Less_irrefl (a : Key) : Less a a = false := by
  have h : bytesCompare a a = Ordering.eq := (bytesCompare_eq_iff a a).mpr rfl
  simp [Less, h]

theorem Less_trans {a b c : Key} (hab : Less a b = true) (hbc : Less b c = true) :
    Less a c = true := by
  simp only [Less, decide_eq_true_eq] at *
  induction a generalizing b c with
  | nil =>
    cases b with
    | nil => simp [bytesCompare] at hab
    | cons y ys =>
      cases c with
      | nil => simp [bytesCompare] at hbc
      | cons z zs => simp [bytesCompare]
  | cons x xs ih =>
    cases b with
    | nil => simp [bytesCompare] at hab
    | cons y ys =>
      cases c with
      | nil => simp [bytesCompare] at hbc
      | cons z zs =>
        simp only [bytesCompare] at hab hbc ⊢
        by_cases hxy : x < y
        · by_cases hyz : y < z
          · simp [lt_trans hxy hyz]
          · by_cases hzy : z < y
            · simp [hyz, hzy] at hbc
            · have : y = z := le_antisymm (not_lt.mp hzy) (not_lt.mp hyz)
              subst this
              simp [hxy]
        · by_cases hyx : y < x
          · simp [hxy, hyx] at hab
          · have hxy2 : x = y := le_antisymm (not_lt.mp hyx) (not_lt.mp hxy)
            subst hxy2
            simp only [hxy, if_false] at hab
            by_cases hxz : x < z
            · simp [hxz]
            · by_cases hzx : z < x
              · simp [hxz, hzx] at hbc
              · simp only [hxz, hzx, if_false] at hbc ⊢
                exact ih hab hbc

theorem Less_asymm {a b : Key} (hab : Less a b = true) : Less b a = false := by
  cases h : Less b a
  · rfl
  · have := Less_trans hab h
    simp [Less_irrefl] at this

theorem Less_total {a b : Key} (h1 : Less a b = false) (h2 : Less b a = false) : a = b := by
  simp only [Less, decide_eq_false_iff_not] at h1 h2
  cases h : bytesCompare a b
  · exact absurd h h1
  · exact (bytesCompare_eq_iff a b).mp h
  · have := (bytesCompare_lt_iff_gt b a).mpr h
    exact absurd this h2

/-! ## Properties of the ordered container -/

namespace BTree

variable {H : Type} {σ : Type}

theorem same_eq_decide (a b : Key) : same a b = decide (a = b) := by
  by_cases h : a = b
  · subst h
    simp [same, Less_irrefl]
  · have hne : ¬ (Less a b = false ∧ Less b a = false) := fun hh => h (Less_total hh.1 hh.2)
    simp only [h, decide_False]
    cases h1 : Less a b <;> cases h2 : Less b a <;> simp_all [same]

theorem Less_ne {a b : Key} (h : Less a b = true) : a ≠ b := by
  intro hab
  subst hab
  simp [Less_irrefl] at h

theorem WF_cons {x : Key × H} {t : BTree H} :
    WF (x :: t) ↔ (∀ k ∈ keys t, Less x.1 k = true) ∧ WF t := by
  simp [WF, keys, List.pairwise_cons]

theorem WF_nil : WF ([] : BTree H) := by
  simp [WF, keys]

theorem Get_nil (k : Key) : Get ([] : BTree H) k = none := rfl

theorem Get_cons (x : Key × H) (t : BTree H) (k : Key) :
    Get (x :: t) k = if x.1 = k then some x.2 else Get t k := by
  by_cases h : x.1 = k <;> simp [Get, List.find?_cons, same_eq_decide, h]

theorem Get_eq_none_iff (t : BTree H) (k : Key) : Get t k = none ↔ k ∉ keys t := by
  induction t with
  | nil => simp [Get_nil, keys]
  | cons x rest ih =>
    rw [Get_cons]
    by_cases h : x.1 = k
    · simp [h, keys]
    · have h2 : ¬ k = x.1 := fun e => h e.symm
      simp only [h, if_false, ih]
      simp [keys, h2]

theorem mem_keys_of_mem {t : BTree H} {p : Key × H} (h : p ∈ t) : p.1 ∈ keys t :=
  List.mem_map_of_mem Prod.fst h

theorem Get_eq_some_iff {t : BTree H} (hwf : WF t) (k : Key) (h : H) :
    Get t k = some h ↔ (k, h) ∈ t := by
  induction t with
  | nil => simp [Get_nil]
  | cons x rest ih =>
    obtain ⟨hx, hrest⟩ := WF_cons.mp hwf
    rw [Get_cons]
    by_cases hk : x.1 = k
    · simp only [hk, if_true, Option.some.injEq, List.mem_cons]
      constructor
      · intro e
        left
        rw [← e, ← hk]
      · rintro (e | e)
        · rw [← e]
        · exact absurd hk (Less_ne (hx k (mem_keys_of_mem e)))
    · simp only [hk, if_false, List.mem_cons, ih hrest]
      constructor
      · exact Or.inr
      · rintro (e | e)
        · exact absurd (by rw [← e]) hk
        · exact e

/-! ### `ReplaceOrInsert` -/

theorem ReplaceOrInsert_lt {x item : Key × H} (rest : BTree H) (h1 : Less item.1 x.1 = true) :
    ReplaceOrInsert (x :: rest) item = item :: x :: rest := by
  simp [ReplaceOrInsert, h1]

theorem ReplaceOrInsert_gt {x item : Key × H} (rest : BTree H) (h1 : Less item.1 x.1 = false)
    (h2 : Less x.1 item.1 = true) :
    ReplaceOrInsert (x :: rest) item = x :: ReplaceOrInsert rest item := by
  simp [ReplaceOrInsert, h1, h2]

theorem ReplaceOrInsert_eq {x item : Key × H} (rest : BTree H) (h1 : Less item.1 x.1 = false)
    (h2 : Less x.1 item.1 = false) :
    ReplaceOrInsert (x :: rest) item = item :: rest := by
  simp [ReplaceOrInsert, h1, h2]

theorem keys_cons (x : Key × H) (t : BTree H) : keys (x :: t) = x.1 :: keys t := rfl

theorem mem_keys_ReplaceOrInsert (t : BTree H) (item : Key × H) (k : Key) :
    k ∈ keys (ReplaceOrInsert t item) ↔ k = item.1 ∨ k ∈ keys t := by
  induction t with
  | nil => simp [ReplaceOrInsert, keys]
  | cons x rest ih =>
    cases h1 : Less item.1 x.1
    · cases h2 : Less x.1 item.1
      · have hxe : item.1 = x.1 := Less_total h1 h2
        rw [ReplaceOrInsert_eq rest h1 h2]
        simp only [keys_cons, List.mem_cons, hxe]
        tauto
      · rw [ReplaceOrInsert_gt rest h1 h2]
        simp only [keys_cons, List.mem_cons, ih]
        tauto
    · rw [ReplaceOrInsert_lt rest h1]
      simp only [keys_cons, List.mem_cons]

theorem WF_ReplaceOrInsert {t : BTree H} (hwf : WF t) (item : Key × H) :
    WF (ReplaceOrInsert t item) := by
  induction t with
  | nil => simp [ReplaceOrInsert, WF, keys]
  | cons x rest ih =>
    obtain ⟨hx, hrest⟩ := WF_cons.mp hwf
    cases h1 : Less item.1 x.1
    · cases h2 : Less x.1 item.1
      · have hxe : item.1 = x.1 := Less_total h1 h2
        rw [ReplaceOrInsert_eq rest h1 h2]
        refine WF_cons.mpr ⟨?_, hrest⟩
        rw [hxe]
        exact hx
      · rw [ReplaceOrInsert_gt rest h1 h2]
        refine WF_cons.mpr ⟨?_, ih hrest⟩
        intro k hk
        rcases (mem_keys_ReplaceOrInsert rest item k).mp hk with hk | hk
        · rw [hk]; exact h2
        · exact hx k hk
    · rw [ReplaceOrInsert_lt rest h1]
      refine WF_cons.mpr ⟨?_, hwf⟩
      intro k hk
      simp only [keys_cons, List.mem_cons] at hk
      rcases hk with hk | hk
      · rw [hk]; exact h1
      · exact Less_trans h1 (hx k hk)

theorem Get_ReplaceOrInsert_self (t : BTree H) (item : Key × H) :
    Get (ReplaceOrInsert t item) item.1 = some item.2 := by
  induction t with
  | nil => simp [ReplaceOrInsert, Get_cons]
  | cons x rest ih =>
    cases h1 : Less item.1 x.1
    · cases h2 : Less x.1 item.1
      · rw [ReplaceOrInsert_eq rest h1 h2, Get_cons, if_pos rfl]
      · rw [ReplaceOrInsert_gt rest h1 h2, Get_cons, if_neg (Less_ne h2), ih]
    · rw [ReplaceOrInsert_lt rest h1, Get_cons, if_pos rfl]

theorem Get_ReplaceOrInsert_other (t : BTree H) (item : Key × H) {k : Key} (hk : k ≠ item.1) :
    Get (ReplaceOrInsert t item) k = Get t k := by
  have hk2 : ¬ item.1 = k := fun e => hk e.symm
  induction t with
  | nil => simp [ReplaceOrInsert, Get_cons, Get_nil, hk2]
  | cons x rest ih =>
    cases h1 : Less item.1 x.1
    · cases h2 : Less x.1 item.1
      · have hxe : item.1 = x.1 := Less_total h1 h2
        have hk3 : ¬ x.1 = k := fun e => hk2 (hxe.trans e)
        rw [ReplaceOrInsert_eq rest h1 h2, Get_cons, if_neg hk2, Get_cons, if_neg hk3]
      · rw [ReplaceOrInsert_gt rest h1 h2, Get_cons, Get_cons, ih]
    · rw [ReplaceOrInsert_lt rest h1, Get_cons, if_neg hk2]

/-! ### `store` -/

theorem store_cons (x : Key × H) (t : BTree H) (k : Key) (h : H) :
    store (x :: t) k h = if x.1 = k then (x.1, h) :: t else x :: store t k h := by
  by_cases e : x.1 = k <;> simp [store, same_eq_decide, e]

theorem keys_store (t : BTree H) (k : Key) (h : H) : keys (store t k h) = keys t := by
  induction t with
  | nil => rfl
  | cons x rest ih =>
    rw [store_cons]
    by_cases e : x.1 = k
    · simp [e, keys]
    · simp only [e, if_false]
      show x.1 :: keys (store rest k h) = x.1 :: keys rest
      rw [ih]

theorem WF_store {t : BTree H} (hwf : WF t) (k : Key) (h : H) : WF (store t k h) := by
  unfold WF
  rw [keys_store]
  exact hwf

theorem Get_store_self {t : BTree H} {k : Key} (hk : k ∈ keys t) (h : H) :
    Get (store t k h) k = some h := by
  induction t with
  | nil => simp [keys] at hk
  | cons x rest ih =>
    rw [store_cons]
    by_cases e : x.1 = k
    · simp [e, Get_cons]
    · simp only [e, if_false, Get_cons]
      apply ih
      simp only [keys, List.map_cons, List.mem_cons] at hk
      rcases hk with hk | hk
      · exact absurd hk.symm e
      · exact hk

theorem Get_store_other (t : BTree H) {k k1 : Key} (hk : k1 ≠ k) (h : H) :
    Get (store t k h) k1 = Get t k1 := by
  induction t with
  | nil => rfl
  | cons x rest ih =>
    rw [store_cons]
    by_cases e : x.1 = k
    · have e1 : ¬ x.1 = k1 := fun e2 => hk (e2.symm.trans e)
      have e4 : ¬ k = k1 := fun e3 => hk e3.symm
      simp [e, Get_cons, e4]
    · simp only [e, if_false, Get_cons, ih]

theorem store_absent {t : BTree H} {k : Key} (hk : k ∉ keys t) (h : H) : store t k h = t := by
  induction t with
  | nil => rfl
  | cons x rest ih =>
    simp only [keys, List.map_cons, List.mem_cons, not_or] at hk
    rw [store_cons, if_neg (fun e => hk.1 e.symm), ih hk.2]

end BTree

/-! ## Point operations of the index -/

namespace treeIndex

variable {H : Type} [KeyIndexOps H]

theorem sampleIndex_tree :
    sampleIndex.tree = [(keyA, sampleHistoryA), (keyB, sampleHistoryB), (keyC, sampleHistoryC)] := by
  decide

theorem sampleIndex_WF : BTree.WF sampleIndex.tree := by
  decide

/-- C4: `treeIndex.Put` is a total function (it never fails); on an index with
distinct ascending keys it keeps that shape, the key set afterwards is the old
key set plus `key`, the history stored under `key` is `put(rev)` applied to the
history stored before (to a fresh history when the key was absent), and the
history of every other key is unchanged. -/
theorem Put_spec (ti : treeIndex H) (hwf : BTree.WF ti.tree) (key : Key) (rev : revision) :
    BTree.WF (ti.Put key rev).tree ∧
    (∀ k, k ∈ BTree.keys (ti.Put key rev).tree ↔ k = key ∨ k ∈ BTree.keys ti.tree) ∧
    (key ∉ BTree.keys ti.tree →
      BTree.Get (ti.Put key rev).tree key =
        some (KeyIndexOps.put (KeyIndexOps.fresh : H) rev.main rev.sub)) ∧
    (∀ h, (key, h) ∈ ti.tree →
      BTree.Get (ti.Put key rev).tree key = some (KeyIndexOps.put h rev.main rev.sub)) ∧
    (∀ k, k ≠ key → BTree.Get (ti.Put key rev).tree k = BTree.Get ti.tree k) := by
  cases hg : BTree.Get ti.tree key with
  | none =>
    have habs : key ∉ BTree.keys ti.tree := (BTree.Get_eq_none_iff _ _).mp hg
    have hput : ti.Put key rev =
        ⟨BTree.ReplaceOrInsert ti.tree (key, KeyIndexOps.put KeyIndexOps.fresh rev.main rev.sub)⟩ := by
      simp [Put, hg]
    rw [hput]
    refine ⟨BTree.WF_ReplaceOrInsert hwf _, ?_, ?_, ?_, ?_⟩
    · intro k
      exact BTree.mem_keys_ReplaceOrInsert _ _ k
    · intro _
      exact BTree.Get_ReplaceOrInsert_self _ _
    · intro h hmem
      exact absurd (BTree.mem_keys_of_mem hmem) habs
    · intro k hk
      exact BTree.Get_ReplaceOrInsert_other _ _ hk
  | some okeyi =>
    have hin : key ∈ BTree.keys ti.tree := by
      by_contra hc
      rw [(BTree.Get_eq_none_iff _ _).mpr hc] at hg
      cases hg
    have hput : ti.Put key rev =
        ⟨BTree.store ti.tree key (KeyIndexOps.put okeyi rev.main rev.sub)⟩ := by
      simp [Put, hg]
    rw [hput]
    refine ⟨BTree.WF_store hwf _ _, ?_, ?_, ?_, ?_⟩
    · intro k
      rw [BTree.keys_store]
      constructor
      · exact Or.inr
      · rintro (e | e)
        · rw [e]; exact hin
        · exact e
    · intro habs
      exact absurd hin habs
    · intro h hmem
      have : BTree.Get ti.tree key = some h := (BTree.Get_eq_some_iff hwf key h).mpr hmem
      rw [hg] at this
      cases this
      exact BTree.Get_store_self hin _
    · intro k hk
      exact BTree.Get_store_other _ hk _

/-- Witness of `Put_spec` on the sample index, for the stored key `"a"`. -/
theorem Put_spec_witness :
    BTree.WF sampleIndex.tree ∧ (keyA, sampleHistoryA) ∈ sampleIndex.tree ∧
    BTree.Get (sampleIndex.Put keyA ⟨6, 0⟩).tree keyA
      = some (KeyIndexOps.put sampleHistoryA 6 0) :=
  ⟨sampleIndex_WF, by decide,
    (Put_spec sampleIndex sampleIndex_WF keyA ⟨6, 0⟩).2.2.2.1 sampleHistoryA (by decide)⟩

/-- C5: `treeIndex.Tombstone` returns `ErrRevisionNotFound` and leaves the index
as it was when the key is not stored; otherwise it returns the error of that
key's history `tombstone(rev)`, stores the history that `tombstone` left under
the key, and changes neither the key set nor the history of any other key. -/
theorem Tombstone_spec (ti : treeIndex H) (hwf : BTree.WF ti.tree) (key : Key) (rev : revision) :
    (key ∉ BTree.keys ti.tree →
      ti.Tombstone key rev = (ti, some error.ErrRevisionNotFound)) ∧
    (∀ h, (key, h) ∈ ti.tree →
      (ti.Tombstone key rev).2 = (KeyIndexOps.tombstone h rev.main rev.sub).2 ∧
      BTree.Get (ti.Tombstone key rev).1.tree key
        = some (KeyIndexOps.tombstone h rev.main rev.sub).1 ∧
      BTree.keys (ti.Tombstone key rev).1.tree = BTree.keys ti.tree ∧
      ∀ k, k ≠ key → BTree.Get (ti.Tombstone key rev).1.tree k = BTree.Get ti.tree k) := by
  constructor
  · intro habs
    simp [Tombstone, (BTree.Get_eq_none_iff _ _).mpr habs]
  · intro h hmem
    have hg : BTree.Get ti.tree key = some h := (BTree.Get_eq_some_iff hwf key h).mpr hmem
    have ht : ti.Tombstone key rev =
        (⟨BTree.store ti.tree key (KeyIndexOps.tombstone h rev.main rev.sub).1⟩,
          (KeyIndexOps.tombstone h rev.main rev.sub).2) := by
      simp [Tombstone, hg]
    rw [ht]
    refine ⟨rfl, ?_, ?_, ?_⟩
    · exact BTree.Get_store_self (BTree.mem_keys_of_mem hmem) _
    · exact BTree.keys_store _ _ _
    · intro k hk
      exact BTree.Get_store_other _ hk _

/-- Witness of `Tombstone_spec` on the sample index: `"d"` is not stored,
`"a"` is. -/
theorem Tombstone_spec_witness :
    BTree.WF sampleIndex.tree ∧ [100] ∉ BTree.keys sampleIndex.tree ∧
    (keyA, sampleHistoryA) ∈ sampleIndex.tree ∧
    sampleIndex.Tombstone [100] ⟨6, 0⟩ = (sampleIndex, some error.ErrRevisionNotFound) ∧
    (sampleIndex.Tombstone keyA ⟨6, 0⟩).2 = (KeyIndexOps.tombstone sampleHistoryA 6 0).2 :=
  ⟨sampleIndex_WF, by decide, by decide,
    (Tombstone_spec sampleIndex sampleIndex_WF [100] ⟨6, 0⟩).1 (by decide),
    ((Tombstone_spec sampleIndex sampleIndex_WF keyA ⟨6, 0⟩).2 sampleHistoryA (by decide)).1⟩

end treeIndex

namespace treeIndex

variable {H : Type} [KeyIndexOps H]

/-- C6, as the claim states it, fails: `Restore` on the sample index for the
stored key `"a"` leaves `put(modified)` of the stored history under the key,
which is not `restore(created, modified, ver)` of it. -/
theorem Restore_stored_counterexample :
    (keyA, sampleHistoryA) ∈ sampleIndex.tree ∧
    BTree.Get (sampleIndex.Restore keyA ⟨1, 0⟩ ⟨6, 0⟩ 9).tree keyA
      = some (KeyIndexOps.put sampleHistoryA 6 0) ∧
    BTree.Get (sampleIndex.Restore keyA ⟨1, 0⟩ ⟨6, 0⟩ 9).tree keyA
      ≠ some (KeyIndexOps.restore sampleHistoryA ⟨1, 0⟩ ⟨6, 0⟩ 9) := by
  decide

/-- C6, amended: `treeIndex.Restore` uses the lookup-or-create scheme of `Put`;
when the key is absent the history stored under it afterwards is
`restore(created, modified, ver)` of a fresh history, and when the key is
already stored it is `put(modified)` of the stored history (`created` and
`ver` are not used); the key set afterwards is the old one plus `key` and no
other key's history changes. -/
theorem Restore_spec (ti : treeIndex H) (hwf : BTree.WF ti.tree) (key : Key)
    (created modified : revision) (ver : Int) :
    BTree.WF (ti.Restore key created modified ver).tree ∧
    (∀ k, k ∈ BTree.keys (ti.Restore key created modified ver).tree
      ↔ k = key ∨ k ∈ BTree.keys ti.tree) ∧
    (key ∉ BTree.keys ti.tree →
      BTree.Get (ti.Restore key created modified ver).tree key =
        some (KeyIndexOps.restore (KeyIndexOps.fresh : H) created modified ver)) ∧
    (∀ h, (key, h) ∈ ti.tree →
      BTree.Get (ti.Restore key created modified ver).tree key
        = some (KeyIndexOps.put h modified.main modified.sub)) ∧
    (∀ k, k ≠ key →
      BTree.Get (ti.Restore key created modified ver).tree k = BTree.Get ti.tree k) := by
  cases hg : BTree.Get ti.tree key with
  | none =>
    have habs : key ∉ BTree.keys ti.tree := (BTree.Get_eq_none_iff _ _).mp hg
    have hres : ti.Restore key created modified ver =
        ⟨BTree.ReplaceOrInsert ti.tree
          (key, KeyIndexOps.restore KeyIndexOps.fresh created modified ver)⟩ := by
      simp [Restore, hg]
    rw [hres]
    refine ⟨BTree.WF_ReplaceOrInsert hwf _, ?_, ?_, ?_, ?_⟩
    · intro k
      exact BTree.mem_keys_ReplaceOrInsert _ _ k
    · intro _
      exact BTree.Get_ReplaceOrInsert_self _ _
    · intro h hmem
      exact absurd (BTree.mem_keys_of_mem hmem) habs
    · intro k hk
      exact BTree.Get_ReplaceOrInsert_other _ _ hk
  | some okeyi =>
    have hin : key ∈ BTree.keys ti.tree := by
      by_contra hc
      rw [(BTree.Get_eq_none_iff _ _).mpr hc] at hg
      cases hg
    have hres : ti.Restore key created modified ver =
        ⟨BTree.store ti.tree key (KeyIndexOps.put okeyi modified.main modified.sub)⟩ := by
      simp [Restore, hg]
    rw [hres]
    refine ⟨BTree.WF_store hwf _ _, ?_, ?_, ?_, ?_⟩
    · intro k
      rw [BTree.keys_store]
      constructor
      · exact Or.inr
      · rintro (e | e)
        · rw [e]; exact hin
        · exact e
    · intro habs
      exact absurd hin habs
    · intro h hmem
      have : BTree.Get ti.tree key = some h := (BTree.Get_eq_some_iff hwf key h).mpr hmem
      rw [hg] at this
      cases this
      exact BTree.Get_store_self hin _
    · intro k hk
      exact BTree.Get_store_other _ hk _

/-- Witness of `Restore_spec` on the sample index: `"d"` is absent, `"a"` is
stored. -/
theorem Restore_spec_witness :
    BTree.WF sampleIndex.tree ∧ [100] ∉ BTree.keys sampleIndex.tree ∧
    (keyA, sampleHistoryA) ∈ sampleIndex.tree ∧
    BTree.Get (sampleIndex.Restore [100] ⟨1, 0⟩ ⟨6, 0⟩ 9).tree [100]
      = some (KeyIndexOps.restore (KeyIndexOps.fresh : keyIndex) ⟨1, 0⟩ ⟨6, 0⟩ 9) ∧
    BTree.Get (sampleIndex.Restore keyA ⟨1, 0⟩ ⟨6, 0⟩ 9).tree keyA
      = some (KeyIndexOps.put sampleHistoryA 6 0) :=
  ⟨sampleIndex_WF, by decide, by decide,
    (Restore_spec sampleIndex sampleIndex_WF [100] ⟨1, 0⟩ ⟨6, 0⟩ 9).2.2.1 (by decide),
    (Restore_spec sampleIndex sampleIndex_WF keyA ⟨1, 0⟩ ⟨6, 0⟩ 9).2.2.2.1 sampleHistoryA
      (by decide)⟩

end treeIndex

/-! ## Range scans -/

namespace BTree

variable {H : Type} {σ : Type}

theorem iterate_nil (it : Key × H → σ → H × σ × Bool) (s : σ) :
    iterate it ([] : BTree H) s = ([], s) := rfl

theorem iterate_cons_stop {it : Key × H → σ → H × σ × Bool} {item : Key × H} {s s1 : σ} {h : H}
    (rest : BTree H) (e : it item s = (h, s1, false)) :
    iterate it (item :: rest) s = ((item.1, h) :: rest, s1) := by
  simp [iterate, e]

theorem iterate_cons_more {it : Key × H → σ → H × σ × Bool} {item : Key × H} {s s1 : σ} {h : H}
    (rest : BTree H) (e : it item s = (h, s1, true)) :
    iterate it (item :: rest) s
      = ((item.1, h) :: (iterate it rest s1).1, (iterate it rest s1).2) := by
  simp [iterate, e]

theorem WF_filter {t : BTree H} (hwf : WF t) (p : Key × H → Bool) : WF (t.filter p) := by
  unfold WF keys at *
  exact hwf.sublist ((List.filter_sublist t).map Prod.fst)

theorem Less_nil_right (k : Key) : Less k [] = false := by
  cases k <;> simp [Less, bytesCompare]

end BTree

namespace treeIndex

variable {H : Type} [KeyIndexOps H]

theorem rangeIterator_stop {endi : Key} (atRev : Int) {item : Key × H}
    (s : List Key × List revision) (h : Less item.1 endi = false) :
    rangeIterator endi atRev item s = (item.2, s, false) := by
  simp [rangeIterator, h]

theorem rangeIterator_skip {endi : Key} {atRev : Int} {item : Key × H}
    (s : List Key × List revision) (h : Less item.1 endi = true)
    (he : (KeyIndexOps.get item.2 atRev).err ≠ none) :
    rangeIterator endi atRev item s = (item.2, s, true) := by
  simp [rangeIterator, h, he]

theorem rangeIterator_hit {endi : Key} {atRev : Int} {item : Key × H}
    (s : List Key × List revision) (h : Less item.1 endi = true)
    (he : (KeyIndexOps.get item.2 atRev).err = none) :
    rangeIterator endi atRev item s
      = (item.2, (s.1 ++ [item.1], s.2 ++ [(KeyIndexOps.get item.2 atRev).modified]), true) := by
  simp [rangeIterator, h, he]

/-- The scan of `Range` over an ascending list of items appends, to the keys
and revisions gathered so far, those of the items below `endi` whose lookup
succeeds. -/
theorem iterate_rangeIterator (endi : Key) (atRev : Int) (l : BTree H) (hwf : BTree.WF l)
    (s : List Key × List revision) :
    (BTree.iterate (rangeIterator endi atRev) l s).2 =
      (s.1 ++ (l.filter (fun item => Less item.1 endi &&
          decide ((KeyIndexOps.get item.2 atRev).err = none))).map Prod.fst,
       s.2 ++ (l.filter (fun item => Less item.1 endi &&
          decide ((KeyIndexOps.get item.2 atRev).err = none))).map
            (fun item => (KeyIndexOps.get item.2 atRev).modified)) := by
  induction l generalizing s with
  | nil => simp [BTree.iterate_nil]
  | cons item rest ih =>
    obtain ⟨hx, hrest⟩ := BTree.WF_cons.mp hwf
    cases hl : Less item.1 endi
    · rw [BTree.iterate_cons_stop rest (rangeIterator_stop atRev s hl)]
      have hnone : rest.filter (fun item => Less item.1 endi &&
          decide ((KeyIndexOps.get item.2 atRev).err = none)) = [] := by
        rw [List.filter_eq_nil_iff]
        intro r hr
        have h1 : Less item.1 r.1 = true := hx r.1 (BTree.mem_keys_of_mem hr)
        have h2 : Less r.1 endi = false := by
          cases h3 : Less r.1 endi
          · rfl
          · rw [Less_trans h1 h3] at hl
            cases hl
        simp [h2]
      simp [List.filter_cons, hl, hnone]
    · by_cases he : (KeyIndexOps.get item.2 atRev).err = none
      · rw [BTree.iterate_cons_more rest (rangeIterator_hit s hl he), ih hrest]
        simp [List.filter_cons, hl, he]
      · rw [BTree.iterate_cons_more rest (rangeIterator_skip s hl he), ih hrest]
        simp [List.filter_cons, hl, he]

/-- C2: for a non-nil `end`, `treeIndex.Range` returns exactly the stored keys
`k` with `key <= k < end` in byte order whose history `get(atRev)` succeeds,
in strictly ascending order (a key whose lookup fails is left out and the keys
after it are still reported), and the revision list runs parallel to the key
list: same length, `revs[i]` the modified revision of `get(atRev)` for
`keys[i]`. -/
theorem Range_spec (ti : treeIndex H) (hwf : BTree.WF ti.tree) (key e : Key) (atRev : Int) :
    ti.Range key (some e) atRev =
      ((ti.rangeHits key e atRev).map Prod.fst,
       (ti.rangeHits key e atRev).map (fun item => (KeyIndexOps.get item.2 atRev).modified)) ∧
    (∀ k, k ∈ (ti.Range key (some e) atRev).1 ↔
      ∃ h, (k, h) ∈ ti.tree ∧ Less k key = false ∧ Less k e = true ∧
        (KeyIndexOps.get h atRev).err = none) ∧
    (ti.Range key (some e) atRev).1.Pairwise (fun a b => Less a b = true) ∧
    (ti.Range key (some e) atRev).2.length = (ti.Range key (some e) atRev).1.length ∧
    (∀ p ∈ List.zip (ti.Range key (some e) atRev).1 (ti.Range key (some e) atRev).2,
      ∃ h, (p.1, h) ∈ ti.tree ∧ p.2 = (KeyIndexOps.get h atRev).modified) := by
  have heq : ti.Range key (some e) atRev =
      ((ti.rangeHits key e atRev).map Prod.fst,
       (ti.rangeHits key e atRev).map (fun item => (KeyIndexOps.get item.2 atRev).modified)) := by
    have h1 := iterate_rangeIterator e atRev (ti.tree.filter (fun item => !Less item.1 key))
      (BTree.WF_filter hwf _) ([], [])
    simp only [Range, BTree.AscendGreaterOrEqual, h1, List.nil_append, List.filter_filter,
      rangeHits]
    congr 2 <;> · congr 1; funext item; cases Less item.1 key <;> simp
  refine ⟨heq, ?_, ?_, ?_, ?_⟩
  · intro k
    rw [heq]
    simp only [rangeHits, List.mem_map, List.mem_filter, Bool.and_eq_true, Bool.not_eq_true',
      decide_eq_true_eq]
    constructor
    · rintro ⟨⟨k1, h⟩, ⟨hmem, ⟨h1, h2⟩, h3⟩, rfl⟩
      exact ⟨h, hmem, h1, h2, h3⟩
    · rintro ⟨h, hmem, h1, h2, h3⟩
      exact ⟨(k, h), ⟨hmem, ⟨h1, h2⟩, h3⟩, rfl⟩
  · rw [heq]
    exact (BTree.WF_filter hwf _ : BTree.WF (ti.rangeHits key e atRev))
  · rw [heq]
    simp
  · rw [heq]
    intro p hp
    simp only [List.zip_map', List.mem_map] at hp
    obtain ⟨item, hitem, rfl⟩ := hp
    exact ⟨item.2, List.mem_of_mem_filter hitem, rfl⟩

/-- Witness of `Range_spec` on the sample index: the scan of `["a", "c")` at
revision 5 skips the tombstoned `"b"`. -/
theorem Range_spec_witness :
    BTree.WF sampleIndex.tree ∧
    sampleIndex.Range keyA (some keyC) 5 =
      ((sampleIndex.rangeHits keyA keyC 5).map Prod.fst,
       (sampleIndex.rangeHits keyA keyC 5).map
        (fun item => (KeyIndexOps.get item.2 5).modified)) ∧
    sampleIndex.Range keyA (some keyC) 5 = ([keyA], [⟨4, 0⟩]) :=
  ⟨sampleIndex_WF, (Range_spec sampleIndex sampleIndex_WF keyA keyC 5).1, by decide⟩

/-- C3, as the claim states it, fails for an end key that is empty but not
nil: on the sample index `Get("a", 5)` succeeds, yet `Range("a", []byte{}, 5)`
returns empty results instead of `(["a"], [rev])`. -/
theorem Range_empty_end_counterexample :
    (sampleIndex.Get keyA 5).err = none ∧
    sampleIndex.Range keyA (some []) 5 = ([], []) ∧
    sampleIndex.Range keyA (some []) 5 ≠ ([keyA], [(sampleIndex.Get keyA 5).modified]) := by
  decide

/-- C3, amended: when the end key is nil, `treeIndex.Range(key, end, atRev)`
is a single-key `Get`: it returns `([key], [rev])` with `rev` the modified
revision of `Get(key, atRev)` when that `Get` succeeds and empty results when
it fails; when the end key is empty but not nil the scan branch runs and the
results are empty. -/
theorem Range_nil_end (ti : treeIndex H) (key : Key) (atRev : Int) :
    ((ti.Get key atRev).err = none →
      ti.Range key none atRev = ([key], [(ti.Get key atRev).modified])) ∧
    ((ti.Get key atRev).err ≠ none → ti.Range key none atRev = ([], [])) ∧
    ti.Range key (some []) atRev = ([], []) := by
  refine ⟨?_, ?_, ?_⟩
  · intro h
    simp [Range, h]
  · intro h
    simp [Range, h]
  · simp only [Range, BTree.AscendGreaterOrEqual]
    cases hl : ti.tree.filter (fun item => !Less item.1 key) with
    | nil => rfl
    | cons item rest =>
      rw [BTree.iterate_cons_stop rest
        (rangeIterator_stop atRev ([], []) (BTree.Less_nil_right item.1))]

/-- Witness of `Range_nil_end` on the sample index: `Get("a", 5)` succeeds and
`Get("b", 5)` fails. -/
theorem Range_nil_end_witness :
    (sampleIndex.Get keyA 5).err = none ∧ (sampleIndex.Get keyB 5).err ≠ none ∧
    sampleIndex.Range keyA none 5 = ([keyA], [(sampleIndex.Get keyA 5).modified]) ∧
    sampleIndex.Range keyB none 5 = ([], []) :=
  ⟨by decide, by decide, (Range_nil_end sampleIndex keyA 5).1 (by decide),
    (Range_nil_end sampleIndex keyB 5).2.1 (by decide)⟩

end treeIndex

/-! ## Compaction of the index -/

namespace BTree

variable {H : Type} {σ : Type}

theorem Delete_cons (x : Key × H) (t : BTree H) (k : Key) :
    Delete (x :: t) k =
      if x.1 = k then (some x.2, t) else ((Delete t k).1, x :: (Delete t k).2) := by
  by_cases e : x.1 = k <;> simp [Delete, same_eq_decide, e]

/-- Deleting the key of an item removes that item when no item before it has
the same key. -/
theorem Delete_append_cons (pre : BTree H) (x : Key × H) (rest : BTree H)
    (hpre : ∀ p ∈ pre, p.1 ≠ x.1) :
    Delete (pre ++ x :: rest) x.1 = (some x.2, pre ++ rest) := by
  induction pre with
  | nil => simp [Delete_cons]
  | cons p pre ih =>
    have hp : p.1 ≠ x.1 := hpre p (List.mem_cons_self _ _)
    have ih1 := ih (fun q hq => hpre q (List.mem_cons_of_mem _ hq))
    rw [List.cons_append, Delete_cons, if_neg hp, ih1]
    rfl

end BTree

namespace treeIndex

variable {H : Type} [KeyIndexOps H]

theorem keys_compactAll (rev : Int) (t : BTree H) (av : Finset revision) :
    BTree.keys (compactAll rev t av).1 = BTree.keys t := by
  induction t generalizing av with
  | nil => rfl
  | cons item rest ih =>
    show item.1 :: BTree.keys (compactAll rev rest _).1 = item.1 :: BTree.keys rest
    rw [ih]

/-- The walk of `Compact` compacts every history in turn, threads the map
`available` through the calls, and appends to `emptyki` the keys whose history
came out empty. -/
theorem iterate_compactIndex (rev : Int) (t : BTree H) (av : Finset revision) (em : List Key) :
    BTree.iterate (compactIndex rev) t (av, em) =
      ((compactAll rev t av).1,
        ((compactAll rev t av).2,
          em ++ BTree.keys ((compactAll rev t av).1.filter
            (fun item => KeyIndexOps.isEmpty item.2)))) := by
  induction t generalizing av em with
  | nil => simp [BTree.iterate_nil, compactAll, BTree.keys]
  | cons item rest ih =>
    have hstep : compactIndex rev item (av, em) =
        ((KeyIndexOps.compact item.2 rev av).1,
          ((KeyIndexOps.compact item.2 rev av).2,
            if KeyIndexOps.isEmpty (KeyIndexOps.compact item.2 rev av).1 then em ++ [item.1]
            else em), true) := rfl
    rw [BTree.iterate_cons_more rest hstep, ih]
    cases he : KeyIndexOps.isEmpty (KeyIndexOps.compact item.2 rev av).1 <;>
      simp [compactAll, List.filter_cons, he, BTree.keys]

omit [KeyIndexOps H] in
/-- The deletion loop of `Compact`, run on the keys of the items of an
ascending container that satisfy `p`, returns the container without those
items; it never reaches the panic. -/
theorem deleteEmpty_filter (p : Key × H → Bool) (pre t : BTree H) (hwf : BTree.WF (pre ++ t)) :
    deleteEmpty (pre ++ t) (BTree.keys (t.filter p)) =
      Outcome.returns (pre ++ t.filter (fun item => !p item)) := by
  induction t generalizing pre with
  | nil => simp [BTree.keys, deleteEmpty]
  | cons x rest ih =>
    cases hp : p x
    · have h1 : pre ++ x :: rest = (pre ++ [x]) ++ rest := by simp
      have h2 := ih (pre ++ [x]) (h1 ▸ hwf)
      simp only [List.filter_cons, hp, Bool.false_eq_true, if_false, Bool.not_false, if_true]
      rw [h1, h2]
      simp
    · have hpre : ∀ q ∈ pre, q.1 ≠ x.1 := by
        intro q hq
        unfold BTree.WF BTree.keys at hwf
        rw [List.map_append, List.pairwise_append] at hwf
        exact BTree.Less_ne (hwf.2.2 q.1 (List.mem_map_of_mem Prod.fst hq) x.1 (by simp))
      have hwf2 : BTree.WF (pre ++ rest) := by
        unfold BTree.WF BTree.keys at *
        refine hwf.sublist (List.Sublist.map Prod.fst ?_)
        exact List.Sublist.append (List.Sublist.refl pre) (List.sublist_cons_self x rest)
      simp only [List.filter_cons, hp, if_true, Bool.not_true, Bool.false_eq_true, if_false]
      show deleteEmpty (pre ++ x :: rest) (x.1 :: BTree.keys (rest.filter p)) = _
      simp only [deleteEmpty, BTree.Delete_append_cons pre x rest hpre]
      exact ih pre hwf2

theorem WF_compactAll {t : BTree H} (hwf : BTree.WF t) (rev : Int) (av : Finset revision) :
    BTree.WF (compactAll rev t av).1 := by
  unfold BTree.WF
  rw [keys_compactAll]
  exact hwf

/-- What `Compact` returns on an ascending container. -/
theorem Compact_eq (ti : treeIndex H) (hwf : BTree.WF ti.tree) (rev : Int) :
    ti.Compact rev = Outcome.returns
      (⟨(compactAll rev ti.tree ∅).1.filter (fun item => !KeyIndexOps.isEmpty item.2)⟩,
        (compactAll rev ti.tree ∅).2) := by
  have h1 := iterate_compactIndex rev ti.tree ∅ []
  have h2 := deleteEmpty_filter (fun item : Key × H => KeyIndexOps.isEmpty item.2) []
    (compactAll rev ti.tree ∅).1 (by simpa using WF_compactAll hwf rev ∅)
  simp only [List.nil_append] at h1 h2
  simp only [Compact, BTree.Ascend, h1, h2]

/-- C7: on an index with distinct ascending keys `treeIndex.Compact` returns
(the fatal branch is not taken); what it returns is the result of compacting
the history of every stored key in ascending key order, all calls
accumulating into one result set that starts empty, and then dropping the
items whose compacted history is empty: the key set afterwards is exactly the
set of previously stored keys with a non-empty compacted history, so no key
with an empty history remains and no key with a non-empty one is removed. -/
theorem Compact_spec (ti : treeIndex H) (hwf : BTree.WF ti.tree) (rev : Int) :
    ti.Compact rev = Outcome.returns
      (⟨(compactAll rev ti.tree ∅).1.filter (fun item => !KeyIndexOps.isEmpty item.2)⟩,
        (compactAll rev ti.tree ∅).2) ∧
    BTree.keys (compactAll rev ti.tree ∅).1 = BTree.keys ti.tree ∧
    (∀ ti1 available, ti.Compact rev = Outcome.returns (ti1, available) →
      BTree.WF ti1.tree ∧
      (∀ k h, (k, h) ∈ ti1.tree ↔
        (k, h) ∈ (compactAll rev ti.tree ∅).1 ∧ KeyIndexOps.isEmpty h = false) ∧
      (∀ k, k ∈ BTree.keys ti1.tree ↔
        ∃ h, (k, h) ∈ (compactAll rev ti.tree ∅).1 ∧ KeyIndexOps.isEmpty h = false)) := by
  refine ⟨Compact_eq ti hwf rev, keys_compactAll rev ti.tree ∅, ?_⟩
  intro ti1 available hret
  rw [Compact_eq ti hwf rev] at hret
  injection hret with hret
  injection hret with h1 h2
  subst h1
  refine ⟨BTree.WF_filter (WF_compactAll hwf rev ∅) _, ?_, ?_⟩
  · intro k h
    simp [List.mem_filter]
  · intro k
    simp only [BTree.keys, List.mem_map, List.mem_filter, Bool.not_eq_true']
    constructor
    · rintro ⟨⟨k1, h⟩, ⟨hmem, he⟩, rfl⟩
      exact ⟨h, hmem, he⟩
    · rintro ⟨h, hmem, he⟩
      exact ⟨(k, h), ⟨hmem, he⟩, rfl⟩

/-- Witness of `Compact_spec` on the sample index: compaction at revision 6
removes the key `"b"`, whose only generation ended at revision 5. -/
theorem Compact_spec_witness :
    BTree.WF sampleIndex.tree ∧
    sampleIndex.Compact 6 = Outcome.returns
      (⟨(compactAll 6 sampleIndex.tree ∅).1.filter (fun item => !KeyIndexOps.isEmpty item.2)⟩,
        (compactAll 6 sampleIndex.tree ∅).2) ∧
    sampleIndex.Compact 6 = Outcome.returns
      (⟨[(keyA, ⟨[⟨2, ⟨1, 0⟩, [⟨4, 0⟩], false⟩]⟩), (keyC, sampleHistoryC)]⟩,
        {⟨4, 0⟩, ⟨2, 0⟩}) :=
  ⟨sampleIndex_WF, (Compact_spec sampleIndex sampleIndex_WF 6).1, by decide⟩

end treeIndex

/-! ## Compaction of one history -/

namespace generation

theorem getLast?_filter_of_getLast? {α : Type} (p : α → Bool) {l : List α} {a : α}
    (hl : l.getLast? = some a) (hp : p a = true) : (l.filter p).getLast? = some a := by
  obtain ⟨ys, rfl⟩ := List.getLast?_eq_some_iff.mp hl
  simp [List.filter_append, hp]

theorem getLast?_of_forall_eq {α : Type} {l : List α} {a : α} (hne : l ≠ [])
    (hall : ∀ x ∈ l, x = a) : l.getLast? = some a := by
  rw [List.getLast?_eq_getLast l hne, hall _ (List.getLast_mem hne)]

theorem anchor_mem {g : generation} {b : Int} {r : revision} (h : g.anchor b = some r) :
    r ∈ g.revs ∧ r.main ≤ b := by
  have h1 : r ∈ g.upTo b := List.mem_of_getLast?_eq_some h
  simpa [upTo, List.mem_filter] using h1

theorem anchor_eq_none_iff (g : generation) (b : Int) :
    g.anchor b = none ↔ ∀ r ∈ g.revs, ¬ r.main ≤ b := by
  simp [anchor, upTo, List.getLast?_eq_none_iff, List.filter_eq_nil_iff]

theorem spares_anchor {g : generation} {b : Int} {r : revision} (h : g.anchor b = some r) :
    g.spares b r = true := by
  simp [spares, h]

theorem retain_revs (g : generation) (b : Int) :
    (g.retain b).revs = g.revs.filter (fun r => g.spares b r) := rfl

theorem retain_created (g : generation) (b : Int) : (g.retain b).created = g.created := rfl

theorem retain_ver (g : generation) (b : Int) : (g.retain b).ver = g.ver := rfl

theorem retain_tombstoned (g : generation) (b : Int) :
    (g.retain b).tombstoned = g.tombstoned := rfl

/-- Compaction at the boundary keeps the anchor at the boundary. -/
theorem anchor_retain (g : generation) (b : Int) : (g.retain b).anchor b = g.anchor b := by
  cases h : g.anchor b with
  | none =>
    rw [anchor_eq_none_iff] at h ⊢
    intro r hr
    rw [retain_revs] at hr
    exact h r (List.mem_of_mem_filter hr)
  | some a =>
    have h1 : (g.upTo b).getLast? = some a := h
    have h2 := getLast?_filter_of_getLast? (fun r => g.spares b r) h1 (spares_anchor h)
    have h3 : (g.retain b).upTo b = (g.upTo b).filter (fun r => g.spares b r) := by
      simp only [upTo, retain_revs, List.filter_filter]
      apply List.filter_congr
      intro x _
      exact Bool.and_comm _ _
    show ((g.retain b).upTo b).getLast? = some a
    rw [h3, h2]

/-- Compaction at the boundary keeps every revision above the boundary, so
the version at the boundary is unchanged. -/
theorem verAt_retain (g : generation) (b : Int) : (g.retain b).verAt b = g.verAt b := by
  have h : (g.retain b).revs.filter (fun r => decide (b < r.main))
      = g.revs.filter (fun r => decide (b < r.main)) := by
    rw [retain_revs, List.filter_filter]
    apply List.filter_congr
    intro x _
    by_cases hx : b < x.main
    · have : ¬ x.main < b := by omega
      simp [spares, hx, this]
    · simp [hx]
  simp only [verAt, h, retain_ver]

/-- Compaction at the boundary keeps the last revision of a generation. -/
theorem getLast?_retain (g : generation) (b : Int) :
    (g.retain b).revs.getLast? = g.revs.getLast? := by
  cases h : g.revs.getLast? with
  | none =>
    have hnil : g.revs = [] := List.getLast?_eq_none_iff.mp h
    simp [retain_revs, hnil]
  | some t =>
    rw [retain_revs]
    apply getLast?_filter_of_getLast? _ h
    by_cases ht : t.main < b
    · have h1 : (g.upTo b).getLast? = some t :=
        getLast?_filter_of_getLast? _ h (by simp; omega)
      exact spares_anchor h1
    · simp [spares, ht]

theorem deletedBy_retain (g : generation) (b : Int) :
    (g.retain b).deletedBy b = g.deletedBy b := by
  simp only [deletedBy, getLast?_retain, retain_tombstoned]

/-- A generation that compaction drops in its entirety gives no anchor at the
boundary or ended at or before it. -/
theorem deletedBy_of_obsolete {g : generation} {b : Int} (h : g.obsolete b = true) :
    g.deletedBy b = true ∨ g.anchor b = none := by
  simp only [obsolete, Bool.and_eq_true, List.all_eq_true, decide_eq_true_eq] at h
  cases hl : g.revs.getLast? with
  | none =>
    right
    have hnil : g.revs = [] := List.getLast?_eq_none_iff.mp hl
    simp [anchor, upTo, hnil]
  | some t =>
    left
    have ht := h.2 t (List.mem_of_getLast?_eq_some hl)
    simp only [deletedBy, h.1, hl, Bool.true_and, Option.any_some, decide_eq_true_eq]
    omega

/-- A generation that survived compaction at `b1` is not dropped by
compaction at a boundary `b2 ≤ b1`. -/
theorem obsolete_retain {g : generation} {b1 b2 : Int} (hb : b2 ≤ b1)
    (h : g.obsolete b1 = false) : (g.retain b1).obsolete b2 = false := by
  cases ht : g.tombstoned
  · simp [obsolete, retain_tombstoned, ht]
  · have h1 : ¬ ∀ r ∈ g.revs, r.main < b1 := by
      intro hall
      have : g.obsolete b1 = true := by
        simp only [obsolete, ht, Bool.true_and, List.all_eq_true, decide_eq_true_eq]
        exact hall
      rw [h] at this
      cases this
    push_neg at h1
    obtain ⟨r, hr, hrb⟩ := h1
    have hr2 : r ∈ (g.retain b1).revs := by
      rw [retain_revs, List.mem_filter]
      refine ⟨hr, ?_⟩
      have : ¬ r.main < b1 := by omega
      simp [spares, this]
    rw [Bool.eq_false_iff]
    intro hob
    simp only [obsolete, Bool.and_eq_true, List.all_eq_true, decide_eq_true_eq] at hob
    have := hob.2 r hr2
    omega

/-- Compaction at `b2 ≤ b1` spares every revision that compaction at `b1`
left in a generation. -/
theorem spares_retain {g : generation} {b1 b2 : Int} (hb : b2 ≤ b1) {r : revision}
    (hr : r ∈ (g.retain b1).revs) : (g.retain b1).spares b2 r = true := by
  rw [retain_revs, List.mem_filter] at hr
  obtain ⟨hmem, hsp⟩ := hr
  by_cases hlt : r.main < b2
  · have hlt1 : r.main < b1 := by omega
    have ha : g.anchor b1 = some r := by
      simpa [spares, hlt1] using hsp
    have hanchor : (g.retain b1).anchor b2 = some r := by
      rcases eq_or_lt_of_le hb with e | e
      · rw [e, anchor_retain, ha]
      · apply getLast?_of_forall_eq
        · intro hnil
          have : r ∈ (g.retain b1).upTo b2 := by
            simp only [upTo, retain_revs, List.mem_filter, decide_eq_true_eq]
            exact ⟨⟨hmem, hsp⟩, by omega⟩
          rw [hnil] at this
          cases this
        · intro x hx
          simp only [upTo, retain_revs, List.mem_filter, decide_eq_true_eq] at hx
          obtain ⟨⟨_, hxs⟩, hxb⟩ := hx
          have hx1 : x.main < b1 := by omega
          have hxa : g.anchor b1 = some x := by
            simpa [spares, hx1] using hxs
          rw [ha] at hxa
          exact (Option.some.inj hxa).symm
    simp [spares, hanchor]
  · simp [spares, hlt]

theorem retain_retain {g : generation} {b1 b2 : Int} (hb : b2 ≤ b1) :
    (g.retain b1).retain b2 = g.retain b1 := by
  have h : (g.retain b1).revs.filter (fun r => (g.retain b1).spares b2 r) = (g.retain b1).revs :=
    List.filter_eq_self.mpr (fun r hr => spares_retain hb hr)
  show generation.mk _ _ _ _ = g.retain b1
  rw [h]

theorem dropped_retain {g : generation} {b1 b2 : Int} (hb : b2 ≤ b1) :
    (g.retain b1).dropped b2 = [] := by
  simp only [dropped, List.filter_eq_nil_iff]
  intro r hr
  simp [spares_retain hb hr]

end generation

namespace keyIndex

theorem answer_retain (g : generation) (b : Int) : answer (g.retain b) b = answer g b := by
  simp only [answer, generation.deletedBy_retain, generation.anchor_retain,
    generation.verAt_retain, generation.retain_created]

theorem answer_of_obsolete {g : generation} {b : Int} (h : g.obsolete b = true) :
    answer g b = notFound := by
  rcases generation.deletedBy_of_obsolete h with h1 | h1
  · simp [answer, h1]
  · simp [answer, h1]

theorem findGeneration_cons (g : generation) (rest : List generation) (b : Int) :
    findGeneration (g :: rest) b =
      match findGeneration rest b with
      | some g1 => some g1
      | none => if (g.anchor b).isSome then some g else none := rfl

theorem findGeneration_eq_none_iff (gs : List generation) (b : Int) :
    findGeneration gs b = none ↔ ∀ g ∈ gs, g.anchor b = none := by
  induction gs with
  | nil => simp [findGeneration]
  | cons g rest ih =>
    rw [findGeneration_cons]
    cases hf : findGeneration rest b with
    | some g1 =>
      simp only [List.mem_cons, forall_eq_or_imp]
      constructor
      · intro h
        cases h
      · rintro ⟨_, hall⟩
        rw [ih.mpr hall] at hf
        cases hf
    | none =>
      have hrest := ih.mp hf
      simp only [List.mem_cons, forall_eq_or_imp]
      cases ha : g.anchor b with
      | none => simpa using hrest
      | some r => simp

theorem findGeneration_some {gs : List generation} {b : Int} {g : generation}
    (h : findGeneration gs b = some g) : g ∈ gs ∧ ∃ r, g.anchor b = some r := by
  induction gs with
  | nil => simp [findGeneration] at h
  | cons g0 rest ih =>
    rw [findGeneration_cons] at h
    cases hf : findGeneration rest b with
    | some g1 =>
      rw [hf] at h
      simp only [Option.some.injEq] at h
      subst h
      obtain ⟨h1, h2⟩ := ih hf
      exact ⟨List.mem_cons_of_mem _ h1, h2⟩
    | none =>
      rw [hf] at h
      cases ha : g0.anchor b with
      | none => simp [ha] at h
      | some r =>
        simp only [ha, Option.isSome_some, if_true, Option.some.injEq] at h
        subst h
        exact ⟨List.mem_cons_self _ _, r, ha⟩

theorem compactGenerations_cons (g : generation) (rest : List generation) (b : Int) :
    compactGenerations (g :: rest) b =
      if g.obsolete b then compactGenerations rest b
      else g.retain b :: compactGenerations rest b := by
  cases h : g.obsolete b <;> simp [compactGenerations, List.filter_cons, h]

theorem mem_compactGenerations {gs : List generation} {b : Int} {g1 : generation} :
    g1 ∈ compactGenerations gs b ↔ ∃ g ∈ gs, g.obsolete b = false ∧ g.retain b = g1 := by
  simp [compactGenerations, List.mem_map, List.mem_filter, and_assoc]

/-- The answer of `get` computed from a list of generations. -/
theorem get_eq (ki : keyIndex) (b : Int) :
    ki.get b = match findGeneration ki.generations b with
      | none => notFound
      | some g => answer g b := rfl

/-- On a well-formed history, `get` at the boundary answers the same before
and after compaction at the boundary. -/
theorem get_compactGenerations (gs : List generation) (b : Int)
    (hwf : gs.Pairwise (fun g1 g2 =>
      g1.tombstoned = true ∧ ∀ r1 ∈ g1.revs, ∀ r2 ∈ g2.revs, r1.main ≤ r2.main)) :
    get ⟨compactGenerations gs b⟩ b = get ⟨gs⟩ b := by
  induction gs with
  | nil => rfl
  | cons g rest ih =>
    obtain ⟨hg, hrest⟩ := List.pairwise_cons.mp hwf
    have ih1 := ih hrest
    rw [get_eq, get_eq] at ih1 ⊢
    simp only at ih1 ⊢
    rw [findGeneration_cons, compactGenerations_cons]
    cases hf : findGeneration rest b with
    | some g1 =>
      rw [hf] at ih1
      simp only at ih1 ⊢
      cases hob : g.obsolete b
      · simp only [Bool.false_eq_true, if_false, findGeneration_cons]
        cases hfc : findGeneration (compactGenerations rest b) b with
        | some g2 =>
          rw [hfc] at ih1
          exact ih1
        | none =>
          exfalso
          obtain ⟨hmem1, r1, hr1⟩ := findGeneration_some hf
          have hob1 : g1.obsolete b = true := by
            by_contra hc
            have hc1 : g1.obsolete b = false := by simpa using hc
            have hin : g1.retain b ∈ compactGenerations rest b :=
              mem_compactGenerations.mpr ⟨g1, hmem1, hc1, rfl⟩
            have hnone := (findGeneration_eq_none_iff _ _).mp hfc _ hin
            rw [generation.anchor_retain, hr1] at hnone
            cases hnone
          obtain ⟨htomb, hle⟩ := hg g1 hmem1
          have hr1mem := (generation.anchor_mem hr1).1
          have hbelow : ∀ r ∈ g1.revs, r.main < b := by
            have := hob1
            simp only [generation.obsolete, Bool.and_eq_true, List.all_eq_true,
              decide_eq_true_eq] at this
            exact this.2
          have : g.obsolete b = true := by
            simp only [generation.obsolete, htomb, Bool.true_and, List.all_eq_true,
              decide_eq_true_eq]
            intro r hr
            have h1 := hle r hr r1 hr1mem
            have h2 := hbelow r1 hr1mem
            omega
          rw [hob] at this
          cases this
      · simp only [if_true]
        exact ih1
    | none =>
      have hnone := (findGeneration_eq_none_iff _ _).mp hf
      have hfc : findGeneration (compactGenerations rest b) b = none := by
        rw [findGeneration_eq_none_iff]
        intro g1 hg1
        obtain ⟨g0, hg0, _, rfl⟩ := mem_compactGenerations.mp hg1
        rw [generation.anchor_retain]
        exact hnone g0 hg0
      cases hob : g.obsolete b
      · simp only [Bool.false_eq_true, if_false, findGeneration_cons, hfc,
          generation.anchor_retain]
        cases ha : g.anchor b with
        | none => simp
        | some r => simp [answer_retain]
      · simp only [if_true, hfc]
        cases ha : g.anchor b with
        | none => simp
        | some r => simp [answer_of_obsolete hob]

/-- Compaction at a boundary `b2 ≤ b1` of a history already compacted at `b1`
changes nothing. -/
theorem compactGenerations_idem (gs : List generation) {b1 b2 : Int} (hb : b2 ≤ b1) :
    compactGenerations (compactGenerations gs b1) b2 = compactGenerations gs b1 := by
  induction gs with
  | nil => rfl
  | cons g rest ih =>
    rw [compactGenerations_cons]
    cases hob : g.obsolete b1
    · simp only [Bool.false_eq_true, if_false]
      rw [compactGenerations_cons, generation.obsolete_retain hb hob]
      simp only [Bool.false_eq_true, if_false, generation.retain_retain hb, ih]
    · simp only [if_true, ih]

/-- Compaction at a boundary `b2 ≤ b1` of a history already compacted at `b1`
drops no revision. -/
theorem droppedRevisions_idem (gs : List generation) {b1 b2 : Int} (hb : b2 ≤ b1) :
    droppedRevisions (compactGenerations gs b1) b2 = [] := by
  induction gs with
  | nil => rfl
  | cons g rest ih =>
    rw [compactGenerations_cons]
    cases hob : g.obsolete b1
    · simp only [Bool.false_eq_true, if_false, droppedRevisions,
        generation.obsolete_retain hb hob, generation.dropped_retain hb, ih, List.append_nil]
    · simp only [if_true, ih]

end keyIndex

/-! ## Point reads and index equality -/

namespace treeIndex

variable {H : Type} [KeyIndexOps H]

theorem WF_Put {ti : treeIndex H} (hwf : BTree.WF ti.tree) (key : Key) (rev : revision) :
    BTree.WF (ti.Put key rev).tree := by
  unfold Put
  cases BTree.Get ti.tree key with
  | none => exact BTree.WF_ReplaceOrInsert hwf _
  | some okeyi => exact BTree.WF_store hwf _ _

theorem mem_keys_Put {ti : treeIndex H} {key k : Key} (rev : revision)
    (hk : k ∈ BTree.keys (ti.Put key rev).tree) : k = key ∨ k ∈ BTree.keys ti.tree := by
  unfold Put at hk
  cases hg : BTree.Get ti.tree key with
  | none =>
    rw [hg] at hk
    exact (BTree.mem_keys_ReplaceOrInsert _ _ k).mp hk
  | some okeyi =>
    rw [hg] at hk
    simp only [BTree.keys_store] at hk
    exact Or.inr hk

theorem WF_Restore {ti : treeIndex H} (hwf : BTree.WF ti.tree) (key : Key)
    (created modified : revision) (ver : Int) :
    BTree.WF (ti.Restore key created modified ver).tree := by
  unfold Restore
  cases BTree.Get ti.tree key with
  | none => exact BTree.WF_ReplaceOrInsert hwf _
  | some okeyi => exact BTree.WF_store hwf _ _

theorem mem_keys_Restore {ti : treeIndex H} {key k : Key} (created modified : revision)
    (ver : Int) (hk : k ∈ BTree.keys (ti.Restore key created modified ver).tree) :
    k = key ∨ k ∈ BTree.keys ti.tree := by
  unfold Restore at hk
  cases hg : BTree.Get ti.tree key with
  | none =>
    rw [hg] at hk
    exact (BTree.mem_keys_ReplaceOrInsert _ _ k).mp hk
  | some okeyi =>
    rw [hg] at hk
    simp only [BTree.keys_store] at hk
    exact Or.inr hk

theorem keys_Tombstone (ti : treeIndex H) (key : Key) (rev : revision) :
    BTree.keys (ti.Tombstone key rev).1.tree = BTree.keys ti.tree := by
  unfold Tombstone
  cases BTree.Get ti.tree key with
  | none => rfl
  | some ki => exact BTree.keys_store _ _ _

/-- Every call returns on an index with distinct ascending keys, keeps that
shape, and stores no key other than the one it inserts. -/
theorem call_returns {ti : treeIndex H} (hwf : BTree.WF ti.tree) (c : Call) :
    ∃ ti1, ti.call c = Outcome.returns ti1 ∧ BTree.WF ti1.tree ∧
      ∀ k ∈ BTree.keys ti1.tree, c.inserted = some k ∨ k ∈ BTree.keys ti.tree := by
  cases c with
  | Put key rev =>
    refine ⟨_, rfl, WF_Put hwf key rev, ?_⟩
    intro k hk
    rcases mem_keys_Put rev hk with e | e
    · exact Or.inl (by rw [e]; rfl)
    · exact Or.inr e
  | Restore key created modified ver =>
    refine ⟨_, rfl, WF_Restore hwf key created modified ver, ?_⟩
    intro k hk
    rcases mem_keys_Restore created modified ver hk with e | e
    · exact Or.inl (by rw [e]; rfl)
    · exact Or.inr e
  | Tombstone key rev =>
    refine ⟨_, rfl, ?_, ?_⟩
    · unfold BTree.WF
      rw [keys_Tombstone]
      exact hwf
    · intro k hk
      rw [keys_Tombstone] at hk
      exact Or.inr hk
  | Compact rev =>
    refine ⟨⟨(compactAll rev ti.tree ∅).1.filter (fun item => !KeyIndexOps.isEmpty item.2)⟩,
      by simp only [call, Compact_eq ti hwf rev],
      BTree.WF_filter (WF_compactAll hwf rev ∅) _, ?_⟩
    intro k hk
    obtain ⟨p, hp, hpk⟩ := List.mem_map.mp hk
    have := BTree.mem_keys_of_mem (List.mem_of_mem_filter hp)
    rw [keys_compactAll, hpk] at this
    exact Or.inr this

/-- A sequence of calls that never inserts `key` returns, and leaves `key`
out of an index that did not store it. -/
theorem run_returns {ti : treeIndex H} (hwf : BTree.WF ti.tree) (key : Key)
    (habs : key ∉ BTree.keys ti.tree) (calls : List Call)
    (hcalls : ∀ c ∈ calls, c.inserted ≠ some key) :
    ∃ ti1, ti.run calls = Outcome.returns ti1 ∧ BTree.WF ti1.tree ∧
      key ∉ BTree.keys ti1.tree := by
  induction calls generalizing ti with
  | nil => exact ⟨ti, rfl, hwf, habs⟩
  | cons c rest ih =>
    obtain ⟨ti1, h1, hwf1, hkeys⟩ := call_returns hwf c
    have habs1 : key ∉ BTree.keys ti1.tree := by
      intro hin
      rcases hkeys key hin with e | e
      · exact hcalls c (List.mem_cons_self _ _) e
      · exact habs e
    obtain ⟨ti2, h2, hwf2, habs2⟩ :=
      ih hwf1 habs1 (fun c1 hc1 => hcalls c1 (List.mem_cons_of_mem _ hc1))
    refine ⟨ti2, ?_, hwf2, habs2⟩
    simp only [run, h1, h2]

/-- C1: `treeIndex.Get` returns `ErrRevisionNotFound`, with zero revisions and
version 0, when the key is not stored in the index, and otherwise returns the
result of `get(atRev)` on the history stored under the key; in particular,
after any sequence of calls on a new index that never inserts `key`, `Get`
of `key` fails with `ErrRevisionNotFound` at every `atRev`. -/
theorem Get_spec (ti : treeIndex H) (key : Key) (atRev : Int) :
    (key ∉ BTree.keys ti.tree →
      ti.Get key atRev = ⟨revision.zero, revision.zero, 0, some error.ErrRevisionNotFound⟩) ∧
    (∀ h, BTree.WF ti.tree → (key, h) ∈ ti.tree → ti.Get key atRev = KeyIndexOps.get h atRev) ∧
    (∀ calls : List Call, (∀ c ∈ calls, c.inserted ≠ some key) →
      ∃ ti1 : treeIndex H, (newTreeIndex : treeIndex H).run calls = Outcome.returns ti1 ∧
        ti1.Get key atRev = ⟨revision.zero, revision.zero, 0, some error.ErrRevisionNotFound⟩) := by
  have hnot : ∀ t : treeIndex H, key ∉ BTree.keys t.tree →
      t.Get key atRev = ⟨revision.zero, revision.zero, 0, some error.ErrRevisionNotFound⟩ := by
    intro t habs
    simp only [Get, (BTree.Get_eq_none_iff _ _).mpr habs]
  refine ⟨hnot ti, ?_, ?_⟩
  · intro h hwf hmem
    simp only [Get, (BTree.Get_eq_some_iff hwf key h).mpr hmem]
  · intro calls hcalls
    obtain ⟨ti1, h1, _, habs1⟩ :=
      run_returns (BTree.WF_nil : BTree.WF (newTreeIndex : treeIndex H).tree) key
        (by simp [newTreeIndex, BTree.keys]) calls hcalls
    exact ⟨ti1, h1, hnot ti1 habs1⟩

/-- Witness of `Get_spec` on the sample index: `"d"` is not stored, `"a"` is,
and a run of calls on `"a"` and `"b"` never inserts `"c"`. -/
theorem Get_spec_witness :
    [100] ∉ BTree.keys sampleIndex.tree ∧ BTree.WF sampleIndex.tree ∧
    (keyA, sampleHistoryA) ∈ sampleIndex.tree ∧
    sampleIndex.Get [100] 4
      = ⟨revision.zero, revision.zero, 0, some error.ErrRevisionNotFound⟩ ∧
    sampleIndex.Get keyA 4 = KeyIndexOps.get sampleHistoryA 4 ∧
    ∃ ti1 : treeIndex keyIndex,
      (newTreeIndex : treeIndex keyIndex).run
        [Call.Put keyA ⟨1, 0⟩, Call.Put keyB ⟨2, 0⟩, Call.Tombstone keyC ⟨3, 0⟩, Call.Compact 2]
          = Outcome.returns ti1 ∧
      ti1.Get keyC 4 = ⟨revision.zero, revision.zero, 0, some error.ErrRevisionNotFound⟩ :=
  ⟨by decide, sampleIndex_WF, by decide,
    (Get_spec sampleIndex [100] 4).1 (by decide),
    (Get_spec sampleIndex keyA 4).2.1 sampleHistoryA sampleIndex_WF (by decide),
    (Get_spec sampleIndex keyC 4).2.2 _ (by decide)⟩

/-- An item of `a` agrees with `b` when `b` stores an equal history under the
same key. -/
theorem equalIterator_agree {b : treeIndex H} {item : Key × H} {bki : H} (s : Outcome Bool)
    (hg : BTree.Get b.tree item.1 = some bki) (he : KeyIndexOps.equal item.2 bki = true) :
    equalIterator b item s = (item.2, s, true) := by
  simp [equalIterator, hg, he]

/-- The walk of `Equal` leaves the variable `equal` at `true` exactly when
every item of `a` agrees with `b`. -/
theorem iterate_equalIterator (b : treeIndex H) (t : BTree H) :
    (BTree.iterate (equalIterator b) t (Outcome.returns true)).2 = Outcome.returns true ↔
      ∀ item ∈ t, ∃ bki, BTree.Get b.tree item.1 = some bki ∧
        KeyIndexOps.equal item.2 bki = true := by
  induction t with
  | nil => simp [BTree.iterate_nil]
  | cons item rest ih =>
    simp only [List.mem_cons, forall_eq_or_imp]
    cases hg : BTree.Get b.tree item.1 with
    | none =>
      have hstep : equalIterator b item (Outcome.returns true) = (item.2,
          Outcome.panics "interface conversion: btree.Item is nil, not *storage.keyIndex",
          false) := by
        simp [equalIterator, hg]
      rw [BTree.iterate_cons_stop rest hstep]
      simp
    | some bki =>
      cases he : KeyIndexOps.equal item.2 bki
      · have hstep : equalIterator b item (Outcome.returns true)
            = (item.2, Outcome.returns false, false) := by
          simp [equalIterator, hg, he]
        rw [BTree.iterate_cons_stop rest hstep]
        simp [he]
      · rw [BTree.iterate_cons_more rest (equalIterator_agree _ hg he), ih]
        simp [he]

/-- The walk of `Equal` returns `true` exactly when the indices have the same
number of keys and every item of `a` agrees with `b`. -/
theorem Equal_returns_true_iff (a b : treeIndex H) :
    a.Equal b = Outcome.returns true ↔
      BTree.Len a.tree = BTree.Len b.tree ∧
      ∀ item ∈ a.tree, ∃ bki, BTree.Get b.tree item.1 = some bki ∧
        KeyIndexOps.equal item.2 bki = true := by
  unfold Equal
  by_cases hlen : BTree.Len a.tree = BTree.Len b.tree
  · simp only [hlen, ne_eq, not_true_eq_false, if_false, true_and, BTree.Ascend]
    exact iterate_equalIterator b a.tree
  · simp [hlen]

omit [KeyIndexOps H] in
/-- Two strictly ascending key lists of the same length, one within the
other, are the same list. -/
theorem keys_eq_of_subset {l1 l2 : List Key} (h1 : l1.Pairwise (fun a b => Less a b = true))
    (h2 : l2.Pairwise (fun a b => Less a b = true)) (hsub : l1 ⊆ l2)
    (hlen : l1.length = l2.length) : l1 = l2 := by
  have hnd : l1.Nodup := h1.imp (fun h => BTree.Less_ne h)
  have hperm : l1.Perm l2 :=
    (List.subperm_of_subset hnd hsub).perm_of_length_le (le_of_eq hlen.symm)
  haveI : IsAntisymm Key (fun a b => Less a b = true) :=
    ⟨fun a b hab hba => by rw [Less_asymm hab] at hba; cases hba⟩
  exact List.eq_of_perm_of_sorted hperm h1 h2

/-- On indices with distinct ascending keys, `Equal` returns `true` exactly
when both hold the same keys and the two histories under every key are
`equal`. -/
theorem Equal_returns_true_iff_same (a b : treeIndex H) (ha : BTree.WF a.tree)
    (hb : BTree.WF b.tree) :
    a.Equal b = Outcome.returns true ↔
      BTree.keys a.tree = BTree.keys b.tree ∧
      ∀ k h1 h2, (k, h1) ∈ a.tree → (k, h2) ∈ b.tree → KeyIndexOps.equal h1 h2 = true := by
  rw [Equal_returns_true_iff]
  constructor
  · rintro ⟨hlen, hall⟩
    have hsub : BTree.keys a.tree ⊆ BTree.keys b.tree := by
      intro k hk
      obtain ⟨p, hp, rfl⟩ := List.mem_map.mp hk
      obtain ⟨bki, hg, _⟩ := hall p hp
      have hm : (p.1, bki) ∈ b.tree := (BTree.Get_eq_some_iff hb p.1 bki).mp hg
      have hk1 := BTree.mem_keys_of_mem hm
      exact hk1
    refine ⟨keys_eq_of_subset ha hb hsub (by simpa [BTree.keys, BTree.Len] using hlen), ?_⟩
    intro k h1 h2 hm1 hm2
    obtain ⟨bki, hg, he⟩ := hall (k, h1) hm1
    rw [(BTree.Get_eq_some_iff hb k h2).mpr hm2] at hg
    rw [Option.some.inj hg]
    exact he
  · rintro ⟨hkeys, hall⟩
    refine ⟨by simpa [BTree.keys, BTree.Len] using congrArg List.length hkeys, ?_⟩
    intro item hitem
    have hin : item.1 ∈ BTree.keys b.tree := hkeys ▸ BTree.mem_keys_of_mem hitem
    obtain ⟨p, hp, hpk⟩ := List.mem_map.mp hin
    refine ⟨p.2, (BTree.Get_eq_some_iff hb item.1 p.2).mpr (by rw [← hpk]; exact hp), ?_⟩
    exact hall item.1 item.2 p.2 hitem (by rw [← hpk]; exact hp)

/-- C10, the failing input: the indices holding only `"a"` and only `"b"` have
the same number of keys and different key sets, and `Equal` on them panics on
the type assertion of the nil item instead of returning `false`. -/
theorem Equal_different_keys_panics :
    BTree.WF onlyA.tree ∧ BTree.WF onlyB.tree ∧
    BTree.Len onlyA.tree = BTree.Len onlyB.tree ∧
    BTree.keys onlyA.tree ≠ BTree.keys onlyB.tree ∧
    onlyA.Equal onlyB
      = Outcome.panics "interface conversion: btree.Item is nil, not *storage.keyIndex" ∧
    onlyA.Equal onlyB ≠ Outcome.returns false := by
  decide

end treeIndex

/-! ## The history model on the scenarios of the specification -/

namespace keyIndex

/-- The concrete scenario of the specification: after `put (1,0)`, `put (2,0)`,
`tombstone (3,0)` and `put (4,0)` on a fresh history, `get 2` is
`((2,0), (1,0), 2)`, `get 3` is NotFound and `get 4` is `((4,0), (4,0), 1)`. -/
theorem get_scenario :
    get ((((put ⟨[]⟩ 1 0).put 2 0).tombstone 3 0).1.put 4 0) 2 = ⟨⟨2, 0⟩, ⟨1, 0⟩, 2, none⟩ ∧
    get ((((put ⟨[]⟩ 1 0).put 2 0).tombstone 3 0).1.put 4 0) 3 = notFound ∧
    get ((((put ⟨[]⟩ 1 0).put 2 0).tombstone 3 0).1.put 4 0) 4 = ⟨⟨4, 0⟩, ⟨4, 0⟩, 1, none⟩ ∧
    (tombstone (((put ⟨[]⟩ 1 0).put 2 0).tombstone 3 0).1 5 0).2
      = some error.ErrRevisionNotFound := by
  decide

end keyIndex

/-! ## The invariants of a history under the operations -/

namespace BTree

variable {H : Type}

theorem mem_ReplaceOrInsert_imp {t : BTree H} {item p : Key × H}
    (h : p ∈ ReplaceOrInsert t item) : p = item ∨ p ∈ t := by
  induction t with
  | nil => simpa [ReplaceOrInsert] using h
  | cons x rest ih =>
    cases h1 : Less item.1 x.1
    · cases h2 : Less x.1 item.1
      · rw [ReplaceOrInsert_eq rest h1 h2] at h
        rcases List.mem_cons.mp h with e | e
        · exact Or.inl e
        · exact Or.inr (List.mem_cons_of_mem _ e)
      · rw [ReplaceOrInsert_gt rest h1 h2] at h
        rcases List.mem_cons.mp h with e | e
        · exact Or.inr (e ▸ List.mem_cons_self _ _)
        · rcases ih e with e1 | e1
          · exact Or.inl e1
          · exact Or.inr (List.mem_cons_of_mem _ e1)
    · rw [ReplaceOrInsert_lt rest h1] at h
      rcases List.mem_cons.mp h with e | e
      · exact Or.inl e
      · exact Or.inr e

theorem mem_store_imp {t : BTree H} {k : Key} {h : H} {p : Key × H}
    (hp : p ∈ store t k h) : p = (k, h) ∨ p ∈ t := by
  induction t with
  | nil => simp [store] at hp
  | cons x rest ih =>
    rw [store_cons] at hp
    by_cases e : x.1 = k
    · rw [if_pos e] at hp
      rcases List.mem_cons.mp hp with e1 | e1
      · exact Or.inl (by rw [e1, e])
      · exact Or.inr (List.mem_cons_of_mem _ e1)
    · rw [if_neg e] at hp
      rcases List.mem_cons.mp hp with e1 | e1
      · exact Or.inr (e1 ▸ List.mem_cons_self _ _)
      · rcases ih e1 with e2 | e2
        · exact Or.inl e2
        · exact Or.inr (List.mem_cons_of_mem _ e2)

end BTree

namespace keyIndex

theorem WF_iff (gs : List generation) :
    WF ⟨gs⟩ ↔ gs.Pairwise (fun g1 g2 =>
      g1.tombstoned = true ∧ ∀ r1 ∈ g1.revs, ∀ r2 ∈ g2.revs, r1.main ≤ r2.main) := Iff.rfl

/-- A generation in front of a well-formed list stays in front of a list
whose revisions are those of the old list and `rev`, when no revision of the
generation is above `rev`. -/
theorem WF_cons_of {g : generation} {gs gs1 : List generation} {rev : revision}
    (hwf : WF ⟨g :: gs⟩) (hne : gs ≠ [])
    (hrevs : ∀ g1 ∈ gs1, ∀ r ∈ g1.revs, r = rev ∨ ∃ g0 ∈ gs, r ∈ g0.revs)
    (hb : ∀ r ∈ g.revs, r.main ≤ rev.main) (hwf1 : WF ⟨gs1⟩) : WF ⟨g :: gs1⟩ := by
  rw [WF_iff, List.pairwise_cons] at hwf ⊢
  refine ⟨?_, hwf1⟩
  intro g1 hg1
  obtain ⟨g0, hg0⟩ := List.exists_mem_of_ne_nil gs hne
  refine ⟨(hwf.1 g0 hg0).1, ?_⟩
  intro r1 hr1 r2 hr2
  rcases hrevs g1 hg1 r2 hr2 with e | ⟨g2, hg2, hr2g⟩
  · rw [e]
    exact hb r1 hr1
  · exact (hwf.1 g2 hg2).2 r1 hr1 r2 hr2g

theorem revs_putGenerations : ∀ (gs : List generation) (rev : revision),
    ∀ g1 ∈ putGenerations gs rev, ∀ r ∈ g1.revs, r = rev ∨ ∃ g ∈ gs, r ∈ g.revs
  | [], rev => by
    intro g1 hg1 r hr
    simp only [putGenerations, List.mem_singleton] at hg1
    subst hg1
    simp only [List.mem_singleton] at hr
    exact Or.inl hr
  | [g], rev => by
    intro g1 hg1 r hr
    cases ht : g.tombstoned
    · simp only [putGenerations, ht, Bool.false_eq_true, if_false, List.mem_singleton] at hg1
      subst hg1
      simp only [List.mem_append, List.mem_singleton] at hr
      rcases hr with e | e
      · exact Or.inr ⟨g, List.mem_singleton_self g, e⟩
      · exact Or.inl e
    · simp only [putGenerations, ht, if_true, List.mem_cons, List.mem_singleton,
        List.not_mem_nil, or_false] at hg1
      rcases hg1 with e | e
      · subst e
        exact Or.inr ⟨g1, List.mem_singleton_self g1, hr⟩
      · subst e
        simp only [List.mem_singleton] at hr
        exact Or.inl hr
  | g :: g0 :: rest, rev => by
    intro g1 hg1 r hr
    simp only [putGenerations, List.mem_cons] at hg1
    rcases hg1 with e | e
    · subst e
      exact Or.inr ⟨g1, List.mem_cons_self _ _, hr⟩
    · rcases revs_putGenerations (g0 :: rest) rev g1 e r hr with e1 | ⟨g2, hg2, hr2⟩
      · exact Or.inl e1
      · exact Or.inr ⟨g2, List.mem_cons_of_mem _ hg2, hr2⟩

theorem WF_putGenerations : ∀ (gs : List generation) (rev : revision), WF ⟨gs⟩ →
    (∀ g ∈ gs, ∀ r ∈ g.revs, r.main ≤ rev.main) → WF ⟨putGenerations gs rev⟩
  | [], rev => by
    intro _ _
    simp [putGenerations, WF_iff]
  | [g], rev => by
    intro _ hb
    cases ht : g.tombstoned
    · simp [putGenerations, ht, WF_iff]
    · simp only [putGenerations, ht, if_true, WF_iff, List.pairwise_cons, List.mem_singleton,
        List.not_mem_nil, false_implies, implies_true, List.Pairwise.nil, and_true,
        forall_eq, true_and]
      intro r1 hr1
      exact hb g (List.mem_singleton_self g) r1 hr1
  | g :: g0 :: rest, rev => by
    intro hwf hb
    have hwf0 : WF ⟨g0 :: rest⟩ := by
      rw [WF_iff] at hwf ⊢
      exact (List.pairwise_cons.mp hwf).2
    have ih := WF_putGenerations (g0 :: rest) rev hwf0
      (fun g1 hg1 => hb g1 (List.mem_cons_of_mem _ hg1))
    exact WF_cons_of hwf (List.cons_ne_nil _ _) (revs_putGenerations (g0 :: rest) rev)
      (hb g (List.mem_cons_self _ _)) ih

theorem revs_tombstoneGenerations : ∀ (gs : List generation) (rev : revision)
    (gs1 : List generation), tombstoneGenerations gs rev = some gs1 →
    ∀ g1 ∈ gs1, ∀ r ∈ g1.revs, r = rev ∨ ∃ g ∈ gs, r ∈ g.revs
  | [], rev, gs1 => by
    intro h
    simp [tombstoneGenerations] at h
  | [g], rev, gs1 => by
    intro h g1 hg1 r hr
    cases ht : g.tombstoned
    · simp only [tombstoneGenerations, ht, Bool.false_eq_true, if_false,
        Option.some.injEq] at h
      subst h
      simp only [List.mem_singleton] at hg1
      subst hg1
      simp only [List.mem_append, List.mem_singleton] at hr
      rcases hr with e | e
      · exact Or.inr ⟨g, List.mem_singleton_self g, e⟩
      · exact Or.inl e
    · simp [tombstoneGenerations, ht] at h
  | g :: g0 :: rest, rev, gs1 => by
    intro h g1 hg1 r hr
    simp only [tombstoneGenerations, Option.map_eq_some'] at h
    obtain ⟨gs2, h2, rfl⟩ := h
    rcases List.mem_cons.mp hg1 with e | e
    · subst e
      exact Or.inr ⟨g1, List.mem_cons_self _ _, hr⟩
    · rcases revs_tombstoneGenerations (g0 :: rest) rev gs2 h2 g1 e r hr with e1 | ⟨g2, hg2, hr2⟩
      · exact Or.inl e1
      · exact Or.inr ⟨g2, List.mem_cons_of_mem _ hg2, hr2⟩

theorem WF_tombstoneGenerations : ∀ (gs : List generation) (rev : revision)
    (gs1 : List generation), tombstoneGenerations gs rev = some gs1 → WF ⟨gs⟩ →
    (∀ g ∈ gs, ∀ r ∈ g.revs, r.main ≤ rev.main) → WF ⟨gs1⟩
  | [], rev, gs1 => by
    intro h
    simp [tombstoneGenerations] at h
  | [g], rev, gs1 => by
    intro h _ _
    cases ht : g.tombstoned
    · simp only [tombstoneGenerations, ht, Bool.false_eq_true, if_false,
        Option.some.injEq] at h
      subst h
      simp [WF_iff]
    · simp [tombstoneGenerations, ht] at h
  | g :: g0 :: rest, rev, gs1 => by
    intro h hwf hb
    simp only [tombstoneGenerations, Option.map_eq_some'] at h
    obtain ⟨gs2, h2, rfl⟩ := h
    have hwf0 : WF ⟨g0 :: rest⟩ := by
      rw [WF_iff] at hwf ⊢
      exact (List.pairwise_cons.mp hwf).2
    have ih := WF_tombstoneGenerations (g0 :: rest) rev gs2 h2 hwf0
      (fun g1 hg1 => hb g1 (List.mem_cons_of_mem _ hg1))
    exact WF_cons_of hwf (List.cons_ne_nil _ _)
      (revs_tombstoneGenerations (g0 :: rest) rev gs2 h2) (hb g (List.mem_cons_self _ _)) ih

/-- `put` of a revision that is not below the recorded ones keeps the
invariants of the history. -/
theorem WF_put {h : keyIndex} {m : Int} (hwf : WF h) (hb : Bounded m h) (main sub : Int)
    (hm : m ≤ main) : WF (h.put main sub) ∧ Bounded main (h.put main sub) := by
  have hb1 : ∀ g ∈ h.generations, ∀ r ∈ g.revs, r.main ≤ (⟨main, sub⟩ : revision).main :=
    fun g hg r hr => le_trans (hb g hg r hr) hm
  refine ⟨WF_putGenerations h.generations ⟨main, sub⟩ hwf hb1, ?_⟩
  intro g1 hg1 r hr
  rcases revs_putGenerations h.generations ⟨main, sub⟩ g1 hg1 r hr with e | ⟨g, hg, hrg⟩
  · rw [e]
  · exact hb1 g hg r hrg

/-- `tombstone` at a revision that is not below the recorded ones keeps the
invariants of the history. -/
theorem WF_tombstone {h : keyIndex} {m : Int} (hwf : WF h) (hb : Bounded m h) (main sub : Int)
    (hm : m ≤ main) : WF (h.tombstone main sub).1 ∧ Bounded main (h.tombstone main sub).1 := by
  have hb1 : ∀ g ∈ h.generations, ∀ r ∈ g.revs, r.main ≤ (⟨main, sub⟩ : revision).main :=
    fun g hg r hr => le_trans (hb g hg r hr) hm
  unfold tombstone
  cases ht : tombstoneGenerations h.generations ⟨main, sub⟩ with
  | none => exact ⟨hwf, fun g hg r hr => hb1 g hg r hr⟩
  | some gs1 =>
    refine ⟨WF_tombstoneGenerations h.generations ⟨main, sub⟩ gs1 ht hwf hb1, ?_⟩
    intro g1 hg1 r hr
    rcases revs_tombstoneGenerations h.generations ⟨main, sub⟩ gs1 ht g1 hg1 r hr with
      e | ⟨g, hg, hrg⟩
    · rw [e]
    · exact hb1 g hg r hrg

/-- Compaction keeps the invariants of the history. -/
theorem WF_compactGenerations {gs : List generation} (b : Int) {m : Int} (hwf : WF ⟨gs⟩)
    (hb : Bounded m ⟨gs⟩) :
    WF ⟨compactGenerations gs b⟩ ∧ Bounded m ⟨compactGenerations gs b⟩ := by
  constructor
  · rw [WF_iff] at hwf ⊢
    unfold compactGenerations
    refine List.Pairwise.map _ ?_ (hwf.filter _)
    intro g1 g2 h12
    refine ⟨h12.1, ?_⟩
    intro r1 hr1 r2 hr2
    rw [generation.retain_revs] at hr1 hr2
    exact h12.2 r1 (List.mem_of_mem_filter hr1) r2 (List.mem_of_mem_filter hr2)
  · intro g1 hg1 r hr
    obtain ⟨g, hg, _, rfl⟩ := mem_compactGenerations.mp hg1
    rw [generation.retain_revs] at hr
    exact hb g hg r (List.mem_of_mem_filter hr)

theorem Bounded_mono {h : keyIndex} {m m1 : Int} (hb : Bounded m h) (hm : m ≤ m1) :
    Bounded m1 h :=
  fun g hg r hr => le_trans (hb g hg r hr) hm

end keyIndex

/-! ## Compaction and reads of the index over `keyIndex` histories -/

namespace treeIndex

/-- The well-formedness of every history stored in an index. -/
theorem sampleIndex_histories : ∀ item ∈ sampleIndex.tree, keyIndex.WF item.2 := by
  decide

theorem compact_fst (h : keyIndex) (b : Int) (av : Finset revision) :
    (KeyIndexOps.compact h b av).1 = ⟨keyIndex.compactGenerations h.generations b⟩ := rfl

theorem compact_snd (h : keyIndex) (b : Int) (av : Finset revision) :
    (KeyIndexOps.compact h b av).2 = av ∪ (keyIndex.anchors h.generations b).toFinset :=
  rfl

theorem mem_anchors {gs : List generation} {b : Int} {r : revision} :
    r ∈ keyIndex.anchors gs b ↔ ∃ g ∈ gs, g.obsolete b = false ∧ g.anchor b = some r := by
  induction gs with
  | nil => simp [keyIndex.anchors]
  | cons g rest ih =>
    simp only [keyIndex.anchors, List.mem_append, ih, List.mem_cons, exists_eq_or_imp]
    cases hob : g.obsolete b
    · simp [Option.mem_toList]
    · simp

/-- The set that the walk of `Compact` returns holds the set handed in and
the anchors of every history. -/
theorem mem_compactAll_snd (b : Int) (t : BTree keyIndex) (av : Finset revision)
    (r : revision) :
    r ∈ (compactAll b t av).2 ↔
      r ∈ av ∨ ∃ item ∈ t, r ∈ keyIndex.anchors item.2.generations b := by
  induction t generalizing av with
  | nil => simp [compactAll]
  | cons item rest ih =>
    simp only [compactAll, ih, compact_snd, Finset.mem_union, List.mem_toFinset,
      List.mem_cons, exists_eq_or_imp]
    tauto

/-- An anchor, at a boundary `b2 ≤ b1`, of a generation compacted at `b1` is
the anchor that compaction at `b1` retained. -/
theorem anchor_retain_of_le {g : generation} {b1 b2 : Int} (hb : b2 ≤ b1) {r : revision}
    (h : (g.retain b1).anchor b2 = some r) : g.anchor b1 = some r := by
  rcases eq_or_lt_of_le hb with e | e
  · rw [e, generation.anchor_retain] at h
    exact h
  · obtain ⟨hmem, hle⟩ := generation.anchor_mem h
    rw [generation.retain_revs, List.mem_filter] at hmem
    have hlt : r.main < b1 := by omega
    simpa [generation.spares, hlt] using hmem.2

theorem compactAll_fst (b : Int) (t : BTree keyIndex) (av : Finset revision) :
    (compactAll b t av).1 =
      t.map (fun item => (item.1, (⟨keyIndex.compactGenerations item.2.generations b⟩ : keyIndex))) := by
  induction t generalizing av with
  | nil => rfl
  | cons item rest ih =>
    simp only [compactAll, List.map_cons, ih, compact_fst]

/-- Compaction at `b2 ≤ b1` of histories that are results of compaction at
`b1` returns them as they are. -/
theorem compactAll_idem {b1 b2 : Int} (hb : b2 ≤ b1) (t : BTree keyIndex)
    (ht : ∀ item ∈ t, ∃ gs, item.2 = ⟨keyIndex.compactGenerations gs b1⟩)
    (av : Finset revision) : (compactAll b2 t av).1 = t := by
  rw [compactAll_fst]
  induction t with
  | nil => rfl
  | cons item rest ih =>
    obtain ⟨gs, hgs⟩ := ht item (List.mem_cons_self _ _)
    rw [List.map_cons, ih (fun it hit => ht it (List.mem_cons_of_mem _ hit))]
    have h2 : (⟨keyIndex.compactGenerations item.2.generations b2⟩ : keyIndex) = item.2 := by
      rw [hgs]
      simp only [keyIndex.compactGenerations_idem gs hb]
    rw [h2]

/-- On an index with distinct ascending keys whose histories are well-formed,
`Compact(boundaryRev)` returns, and `Get(key, boundaryRev)` on the index it
leaves gives, for every key, the answer that `Get(key, boundaryRev)` gave
before, the keys that compaction removed included. -/
theorem Get_Compact_of_WF (ti : treeIndex keyIndex) (hwf : BTree.WF ti.tree)
    (hhist : ∀ item ∈ ti.tree, keyIndex.WF item.2) (boundaryRev : Int) :
    ∃ ti1 available, ti.Compact boundaryRev = Outcome.returns (ti1, available) ∧
      ∀ key, ti1.Get key boundaryRev = ti.Get key boundaryRev := by
  refine ⟨_, _, Compact_eq ti hwf boundaryRev, ?_⟩
  intro key
  have hwfc : BTree.WF (compactAll boundaryRev ti.tree ∅).1 := WF_compactAll hwf _ _
  have hwf1 : BTree.WF ((compactAll boundaryRev ti.tree ∅).1.filter
      (fun item => !KeyIndexOps.isEmpty item.2)) := BTree.WF_filter hwfc _
  cases hg : BTree.Get ti.tree key with
  | none =>
    have habs : key ∉ BTree.keys ti.tree := (BTree.Get_eq_none_iff _ _).mp hg
    have habs1 : key ∉ BTree.keys ((compactAll boundaryRev ti.tree ∅).1.filter
        (fun item => !KeyIndexOps.isEmpty item.2)) := by
      intro hin
      obtain ⟨p, hp, hpk⟩ := List.mem_map.mp hin
      have := BTree.mem_keys_of_mem (List.mem_of_mem_filter hp)
      rw [keys_compactAll, hpk] at this
      exact habs this
    simp only [Get, hg, (BTree.Get_eq_none_iff _ _).mpr habs1]
  | some h =>
    have hmem : (key, h) ∈ ti.tree := (BTree.Get_eq_some_iff hwf key h).mp hg
    have hkeep : keyIndex.get ⟨keyIndex.compactGenerations h.generations boundaryRev⟩ boundaryRev
        = keyIndex.get h boundaryRev :=
      keyIndex.get_compactGenerations h.generations boundaryRev (hhist (key, h) hmem)
    have hmemc : (key, (⟨keyIndex.compactGenerations h.generations boundaryRev⟩ : keyIndex))
        ∈ (compactAll boundaryRev ti.tree ∅).1 := by
      rw [compactAll_fst]
      exact List.mem_map.mpr ⟨(key, h), hmem, rfl⟩
    cases he : keyIndex.isEmpty ⟨keyIndex.compactGenerations h.generations boundaryRev⟩
    · have hmem1 : (key, (⟨keyIndex.compactGenerations h.generations boundaryRev⟩ : keyIndex))
          ∈ (compactAll boundaryRev ti.tree ∅).1.filter
            (fun item => !KeyIndexOps.isEmpty item.2) := by
        rw [List.mem_filter]
        refine ⟨hmemc, ?_⟩
        show (!keyIndex.isEmpty _) = true
        rw [he]
        rfl
      simp only [Get, hg, (BTree.Get_eq_some_iff hwf1 key _).mpr hmem1]
      exact hkeep
    · have habs1 : key ∉ BTree.keys ((compactAll boundaryRev ti.tree ∅).1.filter
          (fun item => !KeyIndexOps.isEmpty item.2)) := by
        intro hin
        obtain ⟨p, hp, hpk⟩ := List.mem_map.mp hin
        obtain ⟨hp1, hp2⟩ := List.mem_filter.mp hp
        have e1 : BTree.Get (compactAll boundaryRev ti.tree ∅).1 key = some p.2 :=
          (BTree.Get_eq_some_iff hwfc key p.2).mpr (by rw [← hpk]; exact hp1)
        rw [(BTree.Get_eq_some_iff hwfc key _).mpr hmemc] at e1
        have e2 := Option.some.inj e1
        rw [← e2] at hp2
        have hp3 : (!keyIndex.isEmpty
            ⟨keyIndex.compactGenerations h.generations boundaryRev⟩) = true := hp2
        rw [he] at hp3
        cases hp3
      have hnil : keyIndex.compactGenerations h.generations boundaryRev = [] := by
        simpa [keyIndex.isEmpty] using he
      simp only [Get, hg, (BTree.Get_eq_none_iff _ _).mpr habs1]
      rw [hnil] at hkeep
      exact hkeep

/-- Every call whose revision is not below the recorded ones returns and
keeps the index sound, with the revision of the call as the new bound. -/
theorem call_sound {ti : treeIndex keyIndex} {m : Int} (hs : Sound m ti) (c : Call)
    (hc : ∀ r, c.recorded = some r → m ≤ r) :
    ∃ ti1, ti.call c = Outcome.returns ti1 ∧ Sound (c.recorded.getD m) ti1 := by
  obtain ⟨hwf, hall⟩ := hs
  have hput : ∀ (key : Key) (rev : revision), m ≤ rev.main → Sound rev.main (ti.Put key rev) := by
    intro key rev hm
    refine ⟨WF_Put hwf key rev, ?_⟩
    intro p hp
    unfold Put at hp
    cases hg : BTree.Get ti.tree key with
    | none =>
      rw [hg] at hp
      rcases BTree.mem_ReplaceOrInsert_imp hp with e | e
      · rw [e]
        exact keyIndex.WF_put (h := ⟨[]⟩) (m := m) (by simp [keyIndex.WF_iff])
          (by intro g hg; cases hg) rev.main rev.sub hm
      · exact ⟨(hall p e).1, keyIndex.Bounded_mono (hall p e).2 hm⟩
    | some okeyi =>
      rw [hg] at hp
      have hmem := (BTree.Get_eq_some_iff hwf key okeyi).mp hg
      rcases BTree.mem_store_imp hp with e | e
      · rw [e]
        exact keyIndex.WF_put (hall _ hmem).1 (hall _ hmem).2 rev.main rev.sub hm
      · exact ⟨(hall p e).1, keyIndex.Bounded_mono (hall p e).2 hm⟩
  cases c with
  | Put key rev => exact ⟨_, rfl, hput key rev (hc rev.main rfl)⟩
  | Restore key created modified ver =>
    have hm : m ≤ modified.main := hc modified.main rfl
    refine ⟨_, rfl, WF_Restore hwf key created modified ver, ?_⟩
    intro p hp
    unfold Restore at hp
    cases hg : BTree.Get ti.tree key with
    | none =>
      rw [hg] at hp
      rcases BTree.mem_ReplaceOrInsert_imp hp with e | e
      · rw [e]
        constructor
        · show keyIndex.WF ⟨[⟨ver, created, [modified], false⟩]⟩
          simp [keyIndex.WF_iff]
        · intro g hg1 r hr
          have hg2 : g = ⟨ver, created, [modified], false⟩ := by
            simpa [KeyIndexOps.restore, KeyIndexOps.fresh, keyIndex.restore,
              keyIndex.restoreGenerations] using hg1
          subst hg2
          simp only [List.mem_singleton] at hr
          rw [hr]
          exact le_refl _
      · exact ⟨(hall p e).1, keyIndex.Bounded_mono (hall p e).2 hm⟩
    | some okeyi =>
      rw [hg] at hp
      have hmem := (BTree.Get_eq_some_iff hwf key okeyi).mp hg
      rcases BTree.mem_store_imp hp with e | e
      · rw [e]
        exact keyIndex.WF_put (hall _ hmem).1 (hall _ hmem).2 modified.main modified.sub hm
      · exact ⟨(hall p e).1, keyIndex.Bounded_mono (hall p e).2 hm⟩
  | Tombstone key rev =>
    have hm : m ≤ rev.main := hc rev.main rfl
    refine ⟨_, rfl, ?_, ?_⟩
    · unfold BTree.WF
      rw [keys_Tombstone]
      exact hwf
    · intro p hp
      unfold Tombstone at hp
      cases hg : BTree.Get ti.tree key with
      | none =>
        rw [hg] at hp
        exact ⟨(hall p hp).1, keyIndex.Bounded_mono (hall p hp).2 hm⟩
      | some ki =>
        rw [hg] at hp
        have hmem := (BTree.Get_eq_some_iff hwf key ki).mp hg
        rcases BTree.mem_store_imp hp with e | e
        · rw [e]
          exact keyIndex.WF_tombstone (hall _ hmem).1 (hall _ hmem).2 rev.main rev.sub hm
        · exact ⟨(hall p e).1, keyIndex.Bounded_mono (hall p e).2 hm⟩
  | Compact rev =>
    refine ⟨⟨(compactAll rev ti.tree ∅).1.filter (fun item => !KeyIndexOps.isEmpty item.2)⟩,
      by simp only [call, Compact_eq ti hwf rev],
      BTree.WF_filter (WF_compactAll hwf rev ∅) _, ?_⟩
    intro p hp
    have h1 := List.mem_of_mem_filter hp
    rw [compactAll_fst] at h1
    obtain ⟨q, hq, rfl⟩ := List.mem_map.mp h1
    exact keyIndex.WF_compactGenerations rev (hall q hq).1 (hall q hq).2

/-- A run of calls whose revisions never decrease returns and leaves a sound
index. -/
theorem run_sound {ti : treeIndex keyIndex} {m : Int} (hs : Sound m ti) (calls : List Call)
    (hcalls : nondecreasingFrom m calls = true) :
    ∃ ti1 m1, ti.run calls = Outcome.returns ti1 ∧ Sound m1 ti1 := by
  induction calls generalizing ti m with
  | nil => exact ⟨ti, m, rfl, hs⟩
  | cons c rest ih =>
    cases hrec : c.recorded with
    | none =>
      simp only [nondecreasingFrom, hrec] at hcalls
      obtain ⟨ti1, h1, hs1⟩ := call_sound hs c (by intro r hr; rw [hrec] at hr; cases hr)
      rw [hrec] at hs1
      obtain ⟨ti2, m2, h2, hs2⟩ := ih hs1 hcalls
      exact ⟨ti2, m2, by simp only [run, h1, h2], hs2⟩
    | some r =>
      simp only [nondecreasingFrom, hrec, Bool.and_eq_true, decide_eq_true_eq] at hcalls
      obtain ⟨ti1, h1, hs1⟩ := call_sound hs c
        (by intro r1 hr1; rw [hrec] at hr1; cases hr1; exact hcalls.1)
      rw [hrec] at hs1
      obtain ⟨ti2, m2, h2, hs2⟩ := ih hs1 hcalls.2
      exact ⟨ti2, m2, by simp only [run, h1, h2], hs2⟩

/-- C8, as the claim states it, fails: the run `Put a (3,0)`,
`Tombstone a (11,0)`, `Put a (1,0)`, `Tombstone a (2,0)`, whose revisions
decrease, leaves an index with distinct keys on which `Get("a", 5)` is
NotFound before `Compact(5)` and `((3,0), (3,0), 1)` after it. -/
theorem Get_after_Compact_counterexample :
    (newTreeIndex : treeIndex keyIndex).run decreasingRun = Outcome.returns decreasingIndex ∧
    BTree.WF decreasingIndex.tree ∧
    decreasingIndex.Compact 5 = Outcome.returns (decreasingCompacted, {⟨3, 0⟩}) ∧
    decreasingIndex.Get keyA 5 = keyIndex.notFound ∧
    decreasingCompacted.Get keyA 5 = ⟨⟨3, 0⟩, ⟨3, 0⟩, 1, none⟩ ∧
    decreasingCompacted.Get keyA 5 ≠ decreasingIndex.Get keyA 5 := by
  decide

/-- C8, amended: for every index with distinct ascending keys whose histories
keep the invariants of the spec (only the newest generation live, generations
in the order of their revisions), and so for every index that a run of `Put`,
`Restore`, `Tombstone` and `Compact` calls with never decreasing revisions
builds from a new index, `Compact(boundaryRev)` returns, and
`Get(key, boundaryRev)` on the index it leaves gives, for every key, the answer
(modified revision, created revision, version and error) that
`Get(key, boundaryRev)` gave before, the keys that compaction removed
included. -/
theorem Get_after_Compact :
    (∀ ti : treeIndex keyIndex, BTree.WF ti.tree → (∀ item ∈ ti.tree, keyIndex.WF item.2) →
      ∀ boundaryRev : Int,
        ∃ ti1 available, ti.Compact boundaryRev = Outcome.returns (ti1, available) ∧
          ∀ key, ti1.Get key boundaryRev = ti.Get key boundaryRev) ∧
    (∀ (m : Int) (calls : List Call), nondecreasingFrom m calls = true →
      ∃ ti : treeIndex keyIndex,
        (newTreeIndex : treeIndex keyIndex).run calls = Outcome.returns ti ∧
        BTree.WF ti.tree ∧ (∀ item ∈ ti.tree, keyIndex.WF item.2) ∧
        ∀ boundaryRev : Int,
          ∃ ti1 available, ti.Compact boundaryRev = Outcome.returns (ti1, available) ∧
            ∀ key, ti1.Get key boundaryRev = ti.Get key boundaryRev) := by
  refine ⟨fun ti hwf hhist b => Get_Compact_of_WF ti hwf hhist b, ?_⟩
  intro m calls hcalls
  have hnew : Sound m (newTreeIndex : treeIndex keyIndex) :=
    ⟨BTree.WF_nil, fun item hitem => by cases hitem⟩
  obtain ⟨ti, m1, hrun, hwf, hall⟩ := run_sound hnew calls hcalls
  exact ⟨ti, hrun, hwf, fun item hitem => (hall item hitem).1,
    fun b => Get_Compact_of_WF ti hwf (fun item hitem => (hall item hitem).1) b⟩

/-- Witness of `Get_after_Compact`: the sample index compacted at revision 6,
and the index that a run with never decreasing revisions builds. -/
theorem Get_after_Compact_witness :
    BTree.WF sampleIndex.tree ∧ (∀ item ∈ sampleIndex.tree, keyIndex.WF item.2) ∧
    nondecreasingFrom 0 increasingRun = true ∧
    (∃ ti1 available, sampleIndex.Compact 6 = Outcome.returns (ti1, available) ∧
      ∀ key, ti1.Get key 6 = sampleIndex.Get key 6) ∧
    ∃ ti : treeIndex keyIndex,
      (newTreeIndex : treeIndex keyIndex).run increasingRun = Outcome.returns ti ∧
      BTree.WF ti.tree ∧ (∀ item ∈ ti.tree, keyIndex.WF item.2) ∧
      ∀ boundaryRev : Int,
        ∃ ti1 available, ti.Compact boundaryRev = Outcome.returns (ti1, available) ∧
          ∀ key, ti1.Get key boundaryRev = ti.Get key boundaryRev :=
  ⟨sampleIndex_WF, sampleIndex_histories, by decide,
    Get_after_Compact.1 sampleIndex sampleIndex_WF sampleIndex_histories 6,
    Get_after_Compact.2 0 increasingRun (by decide)⟩

/-- C9, as the claim states it, fails: `Compact(6)` on the sample index
leaves an index on which a second `Compact(6)` changes nothing, but the set
that the second call returns is not empty: it holds the anchors `(4,0)` of
`"a"` and `(2,0)` of `"c"` again. -/
theorem Compact_twice_counterexample :
    BTree.WF sampleIndex.tree ∧
    sampleIndex.Compact 6 = Outcome.returns (sampleCompacted, {⟨4, 0⟩, ⟨2, 0⟩}) ∧
    sampleCompacted.Compact 6 = Outcome.returns (sampleCompacted, {⟨4, 0⟩, ⟨2, 0⟩}) ∧
    sampleCompacted.Compact 6 ≠ Outcome.returns (sampleCompacted, ∅) := by
  decide

/-- C9, amended: `Compact` is idempotent on the contents of the index: on an
index with distinct ascending keys `Compact(b1)` returns, and `Compact(b2)`
with `b2 ≤ b1` run on the index it leaves returns and leaves that index (its
key set and every key's history) as it is; the set that the second call
returns is within the set that the first call returned, and is that set when
`b2 = b1`. -/
theorem Compact_idempotent (ti : treeIndex keyIndex) (hwf : BTree.WF ti.tree) (b1 b2 : Int)
    (hb : b2 ≤ b1) :
    ∃ ti1 available1 available2,
      ti.Compact b1 = Outcome.returns (ti1, available1) ∧
      ti1.Compact b2 = Outcome.returns (ti1, available2) ∧
      available2 ⊆ available1 ∧ (b2 = b1 → available2 = available1) := by
  have hwf1 : BTree.WF ((compactAll b1 ti.tree ∅).1.filter
      (fun item => !KeyIndexOps.isEmpty item.2)) :=
    BTree.WF_filter (WF_compactAll hwf _ _) _
  have hall : ∀ item ∈ (compactAll b1 ti.tree ∅).1.filter
      (fun item => !KeyIndexOps.isEmpty item.2),
      ∃ p ∈ ti.tree, item = (p.1, ⟨keyIndex.compactGenerations p.2.generations b1⟩) := by
    intro item hitem
    have h1 := List.mem_of_mem_filter hitem
    rw [compactAll_fst] at h1
    obtain ⟨p, hp, rfl⟩ := List.mem_map.mp h1
    exact ⟨p, hp, rfl⟩
  have hsame : (compactAll b2 ((compactAll b1 ti.tree ∅).1.filter
      (fun item => !KeyIndexOps.isEmpty item.2)) ∅).1
      = (compactAll b1 ti.tree ∅).1.filter (fun item => !KeyIndexOps.isEmpty item.2) :=
    compactAll_idem hb _ (fun item hitem => by
      obtain ⟨p, _, rfl⟩ := hall item hitem
      exact ⟨p.2.generations, rfl⟩) ∅
  have hsub : ∀ r, r ∈ (compactAll b2 ((compactAll b1 ti.tree ∅).1.filter
      (fun item => !KeyIndexOps.isEmpty item.2)) ∅).2 → r ∈ (compactAll b1 ti.tree ∅).2 := by
    intro r hr
    rw [mem_compactAll_snd] at hr ⊢
    rcases hr with hr | ⟨item, hitem, hr⟩
    · simp at hr
    · right
      obtain ⟨p, hp, rfl⟩ := hall item hitem
      obtain ⟨g1, hg1, hob1, han1⟩ := mem_anchors.mp hr
      obtain ⟨g, hg, hob, rfl⟩ := keyIndex.mem_compactGenerations.mp hg1
      exact ⟨p, hp, mem_anchors.mpr ⟨g, hg, hob, anchor_retain_of_le hb han1⟩⟩
  refine ⟨_, _, (compactAll b2 ((compactAll b1 ti.tree ∅).1.filter
      (fun item => !KeyIndexOps.isEmpty item.2)) ∅).2, Compact_eq ti hwf b1, ?_, ?_, ?_⟩
  · rw [Compact_eq ⟨_⟩ hwf1 b2]
    simp only [hsame, List.filter_filter, Bool.and_self]
  · intro r hr
    exact hsub r hr
  · intro e
    subst e
    apply Finset.Subset.antisymm (fun r hr => hsub r hr)
    intro r hr
    rw [mem_compactAll_snd] at hr ⊢
    rcases hr with hr | ⟨p, hp, hr⟩
    · simp at hr
    · right
      obtain ⟨g, hg, hob, han⟩ := mem_anchors.mp hr
      have hg1 : g.retain b2 ∈ keyIndex.compactGenerations p.2.generations b2 :=
        keyIndex.mem_compactGenerations.mpr ⟨g, hg, hob, rfl⟩
      refine ⟨(p.1, ⟨keyIndex.compactGenerations p.2.generations b2⟩), ?_, ?_⟩
      · rw [List.mem_filter]
        constructor
        · rw [compactAll_fst]
          exact List.mem_map.mpr ⟨p, hp, rfl⟩
        · show (!keyIndex.isEmpty ⟨keyIndex.compactGenerations p.2.generations b2⟩) = true
          cases hc : keyIndex.compactGenerations p.2.generations b2 with
          | nil => rw [hc] at hg1; cases hg1
          | cons x xs => rfl
      · exact mem_anchors.mpr ⟨g.retain b2, hg1,
          generation.obsolete_retain (le_refl b2) hob, by rw [generation.anchor_retain]; exact han⟩

/-- Witness of `Compact_idempotent` on the sample index: compaction at
revision 3 after compaction at revision 6. -/
theorem Compact_idempotent_witness :
    BTree.WF sampleIndex.tree ∧ (3 : Int) ≤ 6 ∧
    ∃ ti1 available1 available2,
      sampleIndex.Compact 6 = Outcome.returns (ti1, available1) ∧
      ti1.Compact 3 = Outcome.returns (ti1, available2) ∧
      available2 ⊆ available1 ∧ ((3 : Int) = 6 → available2 = available1) :=
  ⟨sampleIndex_WF, by decide, Compact_idempotent sampleIndex sampleIndex_WF 6 3 (by decide)⟩

end treeIndex

/-! ## Symmetry of `Equal`, the scan over three keys, and the fatal branch of `Compact` -/

namespace treeIndex

variable {H : Type} [KeyIndexOps H]

/-- On an index with distinct ascending keys `Equal` is reflexive when the
equality of histories is. -/
theorem Equal_refl (a : treeIndex H) (ha : BTree.WF a.tree)
    (hrefl : ∀ h : H, KeyIndexOps.equal h h = true) : a.Equal a = Outcome.returns true := by
  rw [Equal_returns_true_iff]
  refine ⟨rfl, ?_⟩
  intro item hitem
  exact ⟨item.2, (BTree.Get_eq_some_iff ha item.1 item.2).mpr hitem, hrefl item.2⟩

/-- On indices with distinct ascending keys, `Equal` returns `true` one way
round exactly when it does the other way round, when the equality of
histories is symmetric. -/
theorem Equal_returns_true_symm (a b : treeIndex H) (ha : BTree.WF a.tree)
    (hb : BTree.WF b.tree)
    (hsymm : ∀ h1 h2 : H, KeyIndexOps.equal h1 h2 = true → KeyIndexOps.equal h2 h1 = true) :
    a.Equal b = Outcome.returns true → b.Equal a = Outcome.returns true := by
  rw [Equal_returns_true_iff_same a b ha hb, Equal_returns_true_iff_same b a hb ha]
  rintro ⟨hkeys, hall⟩
  exact ⟨hkeys.symm, fun k h1 h2 hm1 hm2 => hsymm _ _ (hall k h2 h1 hm2 hm1)⟩

/-- C11, the failing input: the index holding `"b"` and `"c"` and the index
holding `"a"` and `"b"` store different histories under `"b"`; `Equal` returns
`false` one way round and panics the other way round, on the type assertion
of the nil item, so it is not symmetric (it is reflexive on both). -/
theorem Equal_asymmetric_on_missing_key :
    BTree.WF indexBC.tree ∧ BTree.WF indexAB.tree ∧
    indexBC.Equal indexBC = Outcome.returns true ∧
    indexAB.Equal indexAB = Outcome.returns true ∧
    indexBC.Equal indexAB = Outcome.returns false ∧
    indexAB.Equal indexBC
      = Outcome.panics "interface conversion: btree.Item is nil, not *storage.keyIndex" ∧
    indexBC.Equal indexAB ≠ indexAB.Equal indexBC := by
  decide

/-- C12, as the claim states it, fails: the sample index holds exactly the
keys `"a"`, `"b"`, `"c"`, at revision 6 the lookup succeeds for `"a"` and
`"c"` and fails for the tombstoned `"b"`, and `Range("a", "c", 6)` returns the
key `"a"` alone, not `["a", "c"]`. -/
theorem Range_three_keys_counterexample :
    BTree.keys sampleIndex.tree = [keyA, keyB, keyC] ∧
    (sampleIndex.Get keyA 6).err = none ∧ (sampleIndex.Get keyC 6).err = none ∧
    (sampleIndex.Get keyB 6).err ≠ none ∧
    (sampleIndex.Range keyA (some keyC) 6).1 = [keyA] ∧
    (sampleIndex.Range keyA (some keyC) 6).1 ≠ [keyA, keyC] := by
  decide

/-- C12, amended: for an index holding exactly the keys `a < b < c`, where at
`atRev` the lookup succeeds for `a` and for `c` and fails for `b`,
`Range(a, c, atRev)` returns exactly the key `a` (the end key is excluded and
`b` is skipped), and `Range(a, e, atRev)` with any end key `e` above `c`
returns exactly the keys `[a, c]` in that order, each with its modified
revision. -/
theorem Range_three_keys (ti : treeIndex H) (a b c : Key) (ha hb hc : H) (atRev : Int)
    (htree : ti.tree = [(a, ha), (b, hb), (c, hc)])
    (hab : Less a b = true) (hbc : Less b c = true)
    (hga : (KeyIndexOps.get ha atRev).err = none)
    (hgb : (KeyIndexOps.get hb atRev).err ≠ none)
    (hgc : (KeyIndexOps.get hc atRev).err = none) :
    ti.Range a (some c) atRev = ([a], [(KeyIndexOps.get ha atRev).modified]) ∧
    ∀ e, Less c e = true →
      ti.Range a (some e) atRev =
        ([a, c], [(KeyIndexOps.get ha atRev).modified, (KeyIndexOps.get hc atRev).modified]) := by
  have hac : Less a c = true := Less_trans hab hbc
  have hba : Less b a = false := Less_asymm hab
  have hca : Less c a = false := Less_asymm hac
  have haa : Less a a = false := Less_irrefl a
  have hcc : Less c c = false := Less_irrefl c
  have hfilter : ti.tree.filter (fun item => !Less item.1 a) = [(a, ha), (b, hb), (c, hc)] := by
    simp [htree, List.filter_cons, haa, hba, hca]
  constructor
  · simp only [Range, BTree.AscendGreaterOrEqual, hfilter]
    rw [BTree.iterate_cons_more _ (@rangeIterator_hit _ _ c atRev (a, ha) ([], []) hac hga),
      BTree.iterate_cons_more _ (@rangeIterator_skip _ _ c atRev (b, hb) _ hbc hgb),
      BTree.iterate_cons_stop _ (@rangeIterator_stop _ _ c atRev (c, hc) _ hcc)]
    rfl
  · intro e hce
    have hbe : Less b e = true := Less_trans hbc hce
    have hae : Less a e = true := Less_trans hab hbe
    simp only [Range, BTree.AscendGreaterOrEqual, hfilter]
    rw [BTree.iterate_cons_more _ (@rangeIterator_hit _ _ e atRev (a, ha) ([], []) hae hga),
      BTree.iterate_cons_more _ (@rangeIterator_skip _ _ e atRev (b, hb) _ hbe hgb),
      BTree.iterate_cons_more _ (@rangeIterator_hit _ _ e atRev (c, hc) _ hce hgc)]
    rfl

/-- Witness of `Range_three_keys` on the sample index at revision 6, with the
end keys `"c"` and `"d"`. -/
theorem Range_three_keys_witness :
    sampleIndex.tree = [(keyA, sampleHistoryA), (keyB, sampleHistoryB), (keyC, sampleHistoryC)] ∧
    Less keyA keyB = true ∧ Less keyB keyC = true ∧
    sampleIndex.Range keyA (some keyC) 6 = ([keyA], [⟨4, 0⟩]) ∧
    sampleIndex.Range keyA (some [100]) 6 = ([keyA, keyC], [⟨4, 0⟩, ⟨2, 0⟩]) :=
  ⟨sampleIndex_tree, by decide, by decide,
    (Range_three_keys sampleIndex keyA keyB keyC sampleHistoryA sampleHistoryB sampleHistoryC 6
      sampleIndex_tree (by decide) (by decide) (by decide) (by decide) (by decide)).1,
    (Range_three_keys sampleIndex keyA keyB keyC sampleHistoryA sampleHistoryB sampleHistoryC 6
      sampleIndex_tree (by decide) (by decide) (by decide) (by decide) (by decide)).2 [100]
      (by decide)⟩

omit [KeyIndexOps H] in
/-- When the deletion loop of `Compact` returns, every `Delete` in it found
its item: before the key `k` of `emptyki` is deleted the loop has returned on
the keys in front of it, and `Delete` of `k` on the tree it left is not nil. -/
theorem deleteEmpty_found {t r : BTree H} (pre : List Key) (k : Key) (post : List Key)
    (h : deleteEmpty t (pre ++ k :: post) = Outcome.returns r) :
    ∃ t1 h1, deleteEmpty t pre = Outcome.returns t1 ∧ (BTree.Delete t1 k).1 = some h1 := by
  induction pre generalizing t with
  | nil =>
    refine ⟨t, ?_⟩
    cases hd : BTree.Delete t k with
    | mk o t1 =>
      cases o with
      | none => simp [deleteEmpty, hd] at h
      | some h1 => exact ⟨h1, rfl, rfl⟩
  | cons p pre ih =>
    cases hd : BTree.Delete t p with
    | mk o t1 =>
      cases o with
      | none => simp [deleteEmpty, hd] at h
      | some h0 =>
        have h2 : deleteEmpty t1 (pre ++ k :: post) = Outcome.returns r := by
          simpa [deleteEmpty, hd] using h
        obtain ⟨t2, h1, e1, e2⟩ := ih h2
        refine ⟨t2, h1, ?_, e2⟩
        simpa [deleteEmpty, hd] using e1

/-- C15: on an index with distinct ascending keys the fatal branch of
`treeIndex.Compact` is not reached: `Compact` returns and does not panic, and
every key collected in `emptyki` during the ascending walk is still stored
when the deletion loop comes to it, so that `tree.Delete` does not return
nil. -/
theorem Compact_never_panics (ti : treeIndex H) (hwf : BTree.WF ti.tree) (rev : Int) :
    (∃ r, ti.Compact rev = Outcome.returns r) ∧
    (∀ msg, ti.Compact rev ≠ Outcome.panics msg) ∧
    (∀ pre k post,
      (BTree.Ascend ti.tree (compactIndex rev) ((∅ : Finset revision), ([] : List Key))).2.2
        = pre ++ k :: post →
      ∃ t1 h1,
        deleteEmpty
          (BTree.Ascend ti.tree (compactIndex rev) ((∅ : Finset revision), ([] : List Key))).1
          pre = Outcome.returns t1 ∧
        (BTree.Delete t1 k).1 = some h1) := by
  have h1 := iterate_compactIndex rev ti.tree ∅ []
  have h2 := deleteEmpty_filter (fun item : Key × H => KeyIndexOps.isEmpty item.2) []
    (compactAll rev ti.tree ∅).1 (by simpa using WF_compactAll hwf rev ∅)
  simp only [List.nil_append] at h1 h2
  refine ⟨⟨_, Compact_eq ti hwf rev⟩, ?_, ?_⟩
  · intro msg hmsg
    rw [Compact_eq ti hwf rev] at hmsg
    cases hmsg
  · intro pre k post hem
    simp only [BTree.Ascend, h1] at hem ⊢
    rw [hem] at h2
    exact deleteEmpty_found pre k post h2

/-- Witness of `Compact_never_panics` on the sample index, compacted at
revision 6: the walk collects the key `"b"`, which `Delete` finds. -/
theorem Compact_never_panics_witness :
    BTree.WF sampleIndex.tree ∧
    (BTree.Ascend sampleIndex.tree (compactIndex 6)
      ((∅ : Finset revision), ([] : List Key))).2.2 = [] ++ keyB :: [] ∧
    (∃ r, sampleIndex.Compact 6 = Outcome.returns r) ∧
    ∃ t1 h1,
      deleteEmpty
        (BTree.Ascend sampleIndex.tree (compactIndex 6)
          ((∅ : Finset revision), ([] : List Key))).1 [] = Outcome.returns t1 ∧
      (BTree.Delete t1 keyB).1 = some h1 :=
  ⟨sampleIndex_WF, by decide, (Compact_never_panics sampleIndex sampleIndex_WF 6).1,
    (Compact_never_panics sampleIndex sampleIndex_WF 6).2.2 [] keyB [] (by decide)⟩

end treeIndex

end storage

/-! # Properties of the string functions -/

namespace strings

theorem HasPrefix_single (s : GoString) (c : Fin 256) :
    HasPrefix s [c] = true ↔ s.head? = some c := by
  cases s with
  | nil => simp [HasPrefix, List.isPrefixOf]
  | cons x t =>
    simp only [HasPrefix, List.isPrefixOf, Bool.and_true, beq_iff_eq, List.head?_cons,
      Option.some.injEq]
    exact eq_comm

theorem HasSuffix_single (s : GoString) (c : Fin 256) :
    HasSuffix s [c] = true ↔ s.getLast? = some c := by
  rw [HasSuffix, List.isSuffixOf_iff_suffix, List.getLast?_eq_some_iff]
  constructor
  · rintro ⟨t, ht⟩
    exact ⟨t, ht.symm⟩
  · rintro ⟨t, ht⟩
    exact ⟨t, ht.symm⟩

theorem Contains_iff (s substr : GoString) : Contains s substr = true ↔ substr <:+: s := by
  simp [Contains]

theorem Contains_single (s : GoString) (c : Fin 256) : Contains s [c] = true ↔ c ∈ s := by
  rw [Contains_iff]
  constructor
  · rintro ⟨pre, post, h⟩
    rw [← h]
    simp
  · intro h
    obtain ⟨pre, post, rfl⟩ := List.append_of_mem h
    exact ⟨pre, post, by simp⟩

theorem countFrom_single (c : Fin 256) (s : GoString) : countFrom [c] s 0 = s.count c := by
  induction s with
  | nil => rfl
  | cons x t ih =>
    by_cases h : c = x
    · subst h
      simp [countFrom, List.isPrefixOf, ih]
      omega
    · have h2 : ¬ x = c := fun e => h e.symm
      simp [countFrom, List.isPrefixOf, ih, h, List.count_cons, h2]

theorem Count_single (s : GoString) (c : Fin 256) : Count s [c] = s.count c :=
  countFrom_single c s

end strings

namespace fmt

theorem digit_val (d : Nat) : (digit d).val = 48 + d % 10 := rfl

/-- A byte that is neither `':'` nor `']'`. -/
theorem digit_plain (d : Nat) : digit d ≠ 58 ∧ digit d ≠ 93 := by
  constructor
  · intro h
    have h1 : (digit d).val = 58 := congrArg Fin.val h
    rw [digit_val] at h1
    omega
  · intro h
    have h1 : (digit d).val = 93 := congrArg Fin.val h
    rw [digit_val] at h1
    omega

theorem digits_plain (fuel n : Nat) (acc : GoString)
    (hacc : ∀ c ∈ acc, c ≠ (58 : Fin 256) ∧ c ≠ 93) :
    ∀ c ∈ digits fuel n acc, c ≠ (58 : Fin 256) ∧ c ≠ 93 := by
  induction fuel generalizing n acc with
  | zero => simpa [digits] using hacc
  | succ fuel ih =>
    have hacc1 : ∀ c ∈ digit n :: acc, c ≠ (58 : Fin 256) ∧ c ≠ 93 := by
      intro c hc
      rcases List.mem_cons.mp hc with e | e
      · rw [e]; exact digit_plain n
      · exact hacc c e
    unfold digits
    split_ifs
    · exact hacc1
    · exact ih (n / 10) _ hacc1

theorem digits_ne_nil (fuel n : Nat) (acc : GoString) : digits (fuel + 1) n acc ≠ [] := by
  induction fuel generalizing n acc with
  | zero =>
    unfold digits
    split_ifs <;> simp [digits]
  | succ fuel ih =>
    unfold digits
    split_ifs
    · simp
    · exact ih (n / 10) _

/-- No byte of a formatted number is `':'` or `']'`. -/
theorem decimal_plain (n : Int) : ∀ c ∈ decimal n, c ≠ (58 : Fin 256) ∧ c ≠ 93 := by
  unfold decimal
  split_ifs
  · intro c hc
    rcases List.mem_cons.mp hc with e | e
    · rw [e]; decide
    · exact digits_plain _ _ [] (by simp) c e
  · exact digits_plain _ _ [] (by simp)

theorem decimal_ne_nil (n : Int) : decimal n ≠ [] := by
  unfold decimal
  split_ifs
  · simp
  · exact digits_ne_nil _ _ _

theorem digits_append (fuel n : Nat) (acc : GoString) :
    digits fuel n acc = digits fuel n [] ++ acc := by
  induction fuel generalizing n acc with
  | zero => simp [digits]
  | succ fuel ih =>
    unfold digits
    split_ifs
    · simp
    · rw [ih (n / 10) (digit n :: acc), ih (n / 10) [digit n]]
      simp

theorem valueOf_append_single (s : GoString) (c : Fin 256) :
    valueOf (s ++ [c]) = 10 * valueOf s + (c.val - 48) := by
  simp [valueOf, List.foldl_append]

/-- With enough fuel the digits produced denote the number. -/
theorem valueOf_digits (fuel n : Nat) (h : n ≤ fuel) : valueOf (digits (fuel + 1) n []) = n := by
  induction fuel generalizing n with
  | zero =>
    have : n = 0 := by omega
    subst this
    rfl
  | succ fuel ih =>
    unfold digits
    split_ifs with h0
    · have hn : n < 10 := by
        by_contra hc
        have : 1 ≤ n / 10 := Nat.le_div_iff_mul_le (by norm_num) |>.mpr (by omega)
        omega
      simp [valueOf, digit_val]
      omega
    · have hle : n / 10 ≤ fuel := by
        have : n / 10 < n := Nat.div_lt_self (by omega) (by norm_num)
        omega
      rw [digits_append, valueOf_append_single, ih (n / 10) hle, digit_val]
      omega

/-- The formatted number: `22` is `"22"`, `0` is `"0"`, `-5` is `"-5"`, and
the digits of a number that is not negative denote it. -/
theorem decimal_examples :
    decimal 22 = [50, 50] ∧ decimal 0 = [48] ∧ decimal (-5) = [45, 53] ∧
    ∀ n : Nat, valueOf (decimal (n : Int)) = n := by
  refine ⟨by decide, by decide, by decide, ?_⟩
  intro n
  have h : ¬ ((n : Int) < 0) := by omega
  simp only [decimal, h, if_false, Int.natAbs_ofNat]
  exact valueOf_digits n n (le_refl n)

end fmt

/-! # The port suffix of an SSH address -/

namespace network

/-- The cases of `ensurePortSuffix` in terms of the bytes of `host`: whether
it holds a `':'`, starts with `'['`, ends with `']'`, holds `"]:"`, and how
many `':'` it holds. -/
theorem ensurePortSuffix_eq (host : GoString) (port : Int) :
    ensurePortSuffix host port =
      if (58 : Fin 256) ∉ host then host ++ [58] ++ fmt.decimal port
      else if host.head? = some 91 ∧ host.getLast? = some 93 then
        host ++ [58] ++ fmt.decimal port
      else if host.head? = some 91 ∧ [93, 58] <:+: host then host
      else if 1 < host.count 58 then [91] ++ host ++ [93, 58] ++ fmt.decimal port
      else host := by
  have e1 : strings.Contains host [58] = decide ((58 : Fin 256) ∈ host) := by
    rw [Bool.eq_iff_iff, strings.Contains_single]
    simp
  have e2 : strings.HasPrefix host [91] = decide (host.head? = some 91) := by
    rw [Bool.eq_iff_iff, strings.HasPrefix_single]
    simp
  have e3 : strings.HasSuffix host [93] = decide (host.getLast? = some 93) := by
    rw [Bool.eq_iff_iff, strings.HasSuffix_single]
    simp
  have e4 : strings.Contains host [93, 58] = decide ([93, 58] <:+: host) := rfl
  simp only [ensurePortSuffix, e1, e2, e3, e4, strings.Count_single]
  by_cases h1 : (58 : Fin 256) ∈ host
  · by_cases h2 : host.head? = some 91
    · by_cases h3 : host.getLast? = some 93
      · simp [h1, h2, h3]
      · by_cases h4 : [93, 58] <:+: host
        · simp [h1, h2, h3, h4]
        · by_cases h5 : 1 < host.count 58 <;> simp [h1, h2, h3, h4, h5]
    · by_cases h5 : 1 < host.count 58 <;> simp [h1, h2, h5]
  · simp [h1]

/-- C13, as the claim states it, fails: the host `"[]:]"` starts with `'['`
and contains `"]:"`, yet with port 22 the result is not the host unchanged
but `"[]:]:22"`, because the host also ends with `']'`. -/
theorem ensurePortSuffix_counterexample :
    ([91, 93, 58, 93] : GoString).head? = some 91 ∧
    [93, 58] <:+: ([91, 93, 58, 93] : GoString) ∧
    ensurePortSuffix [91, 93, 58, 93] 22 = [91, 93, 58, 93, 58, 50, 50] ∧
    ensurePortSuffix [91, 93, 58, 93] 22 ≠ [91, 93, 58, 93] := by
  decide

/-- C13, amended: `ensurePortSuffix` adds the port exactly when none is set:
(1) a host without `':'` gives `host + ":" + decimal(port)`; (2) a host that
starts with `'['` and ends with `']'` gives `host + ":" + decimal(port)`;
(3) a host with more than one `':'` that does not start with `'['` gives
`"[" + host + "]:" + decimal(port)`; (4) a host that starts with `'['`,
contains `"]:"` and does not end with `']'`, and a host that does not start
with `'['` and has exactly one `':'`, are returned unchanged. -/
theorem ensurePortSuffix_spec (host : GoString) (port : Int) :
    ((58 : Fin 256) ∉ host → ensurePortSuffix host port = host ++ [58] ++ fmt.decimal port) ∧
    (host.head? = some 91 → host.getLast? = some 93 →
      ensurePortSuffix host port = host ++ [58] ++ fmt.decimal port) ∧
    (1 < host.count 58 → host.head? ≠ some 91 →
      ensurePortSuffix host port = [91] ++ host ++ [93, 58] ++ fmt.decimal port) ∧
    (host.head? = some 91 → [93, 58] <:+: host → host.getLast? ≠ some 93 →
      ensurePortSuffix host port = host) ∧
    (host.head? ≠ some 91 → host.count 58 = 1 → ensurePortSuffix host port = host) := by
  rw [ensurePortSuffix_eq]
  refine ⟨?_, ?_, ?_, ?_, ?_⟩
  · intro h1
    simp [h1]
  · intro h2 h3
    by_cases h1 : (58 : Fin 256) ∈ host <;> simp [h1, h2, h3]
  · intro h5 h2
    have h1 : (58 : Fin 256) ∈ host := List.count_pos_iff.mp (by omega)
    simp [h1, h2, h5]
  · intro h2 h4 h3
    have h1 : (58 : Fin 256) ∈ host := h4.subset (by simp)
    simp [h1, h2, h3, h4]
  · intro h2 h5
    have h1 : (58 : Fin 256) ∈ host := List.count_pos_iff.mp (by omega)
    simp [h1, h2, h5]

/-- Witness of `ensurePortSuffix_spec`: the hosts `"h"`, `"[::1]"`, `"::1"`,
`"[::1]:2"` and `"h:2"` with the default port. -/
theorem ensurePortSuffix_spec_witness :
    ensurePortSuffix [104] defaultPort = [104, 58, 50, 50] ∧
    ensurePortSuffix [91, 58, 58, 49, 93] defaultPort = [91, 58, 58, 49, 93, 58, 50, 50] ∧
    ensurePortSuffix [58, 58, 49] defaultPort = [91, 58, 58, 49, 93, 58, 50, 50] ∧
    ensurePortSuffix [91, 58, 58, 49, 93, 58, 50] defaultPort = [91, 58, 58, 49, 93, 58, 50] ∧
    ensurePortSuffix [104, 58, 50] defaultPort = [104, 58, 50] :=
  ⟨(ensurePortSuffix_spec [104] defaultPort).1 (by decide),
    (ensurePortSuffix_spec [91, 58, 58, 49, 93] defaultPort).2.1 (by decide) (by decide),
    (ensurePortSuffix_spec [58, 58, 49] defaultPort).2.2.1 (by decide) (by decide),
    (ensurePortSuffix_spec [91, 58, 58, 49, 93, 58, 50] defaultPort).2.2.2.1
      (by decide) (by decide) (by decide),
    (ensurePortSuffix_spec [104, 58, 50] defaultPort).2.2.2.2 (by decide) (by decide)⟩

/-- A host with the port appended does not end with `']'`. -/
theorem getLast?_append_decimal (s : GoString) (port : Int) :
    (s ++ fmt.decimal port).getLast? ≠ some 93 := by
  intro h
  cases hd : (fmt.decimal port).getLast? with
  | none => exact fmt.decimal_ne_nil port (List.getLast?_eq_none_iff.mp hd)
  | some c =>
    obtain ⟨ys, hys⟩ := List.getLast?_eq_some_iff.mp hd
    have hc := (fmt.decimal_plain port c (List.mem_of_getLast?_eq_some hd)).2
    rw [hys, ← List.append_assoc] at h
    obtain ⟨zs, hzs⟩ := List.getLast?_eq_some_iff.mp h
    have := List.append_inj_right' hzs rfl
    simp only [List.cons.injEq, and_true] at this
    exact hc this

/-- A string that holds a `':'` and does not end with `']'` is returned
unchanged when it starts with `'['` and holds `"]:"`, and when it holds no
more than one `':'`. -/
theorem ensurePortSuffix_fixed (r : GoString) (port : Int) (g1 : (58 : Fin 256) ∈ r)
    (g3 : r.getLast? ≠ some 93)
    (hcase : (r.head? = some 91 ∧ [93, 58] <:+: r) ∨ ¬ 1 < r.count 58) :
    ensurePortSuffix r port = r := by
  rw [ensurePortSuffix_eq, if_neg (not_not.mpr g1), if_neg (fun h => g3 h.2)]
  by_cases hc : r.head? = some 91 ∧ [93, 58] <:+: r
  · rw [if_pos hc]
  · rw [if_neg hc]
    rcases hcase with h | h
    · exact absurd h hc
    · rw [if_neg h]

/-- C16: `ensurePortSuffix` is idempotent: for every host and every port,
applying it to its own result gives that result again, so a port is not
appended twice. -/
theorem ensurePortSuffix_idempotent (host : GoString) (port : Int) :
    ensurePortSuffix (ensurePortSuffix host port) port = ensurePortSuffix host port := by
  have hcount : (fmt.decimal port).count 58 = 0 :=
    List.count_eq_zero.mpr (fun hm => (fmt.decimal_plain port 58 hm).1 rfl)
  have hwrap : ensurePortSuffix ([91] ++ host ++ [93, 58] ++ fmt.decimal port) port
      = [91] ++ host ++ [93, 58] ++ fmt.decimal port := by
    apply ensurePortSuffix_fixed
    · simp
    · exact getLast?_append_decimal _ port
    · exact Or.inl ⟨by simp, ⟨[91] ++ host, fmt.decimal port, by simp⟩⟩
  by_cases h1 : (58 : Fin 256) ∈ host
  · by_cases h2 : host.head? = some 91
    · by_cases h3 : host.getLast? = some 93
      · have hr : ensurePortSuffix host port = host ++ [58] ++ fmt.decimal port := by
          rw [ensurePortSuffix_eq, if_neg (not_not.mpr h1), if_pos ⟨h2, h3⟩]
        rw [hr]
        apply ensurePortSuffix_fixed
        · simp
        · exact getLast?_append_decimal _ port
        · left
          constructor
          · obtain ⟨t, ht⟩ := List.head?_eq_some_iff.mp h2
            simp [ht]
          · obtain ⟨ys, hys⟩ := List.getLast?_eq_some_iff.mp h3
            exact ⟨ys, fmt.decimal port, by simp [hys]⟩
      · by_cases h4 : [93, 58] <:+: host
        · have hr : ensurePortSuffix host port = host := by
            rw [ensurePortSuffix_eq, if_neg (not_not.mpr h1), if_neg (fun h => h3 h.2),
              if_pos ⟨h2, h4⟩]
          rw [hr, hr]
        · by_cases h5 : 1 < host.count 58
          · have hr : ensurePortSuffix host port
                = [91] ++ host ++ [93, 58] ++ fmt.decimal port := by
              rw [ensurePortSuffix_eq, if_neg (not_not.mpr h1), if_neg (fun h => h3 h.2),
                if_neg (fun h => h4 h.2), if_pos h5]
            rw [hr, hwrap]
          · have hr : ensurePortSuffix host port = host := by
              rw [ensurePortSuffix_eq, if_neg (not_not.mpr h1), if_neg (fun h => h3 h.2),
                if_neg (fun h => h4 h.2), if_neg h5]
            rw [hr, hr]
    · by_cases h5 : 1 < host.count 58
      · have hr : ensurePortSuffix host port
            = [91] ++ host ++ [93, 58] ++ fmt.decimal port := by
          rw [ensurePortSuffix_eq, if_neg (not_not.mpr h1), if_neg (fun h => h2 h.1),
            if_neg (fun h => h2 h.1), if_pos h5]
        rw [hr, hwrap]
      · have hr : ensurePortSuffix host port = host := by
          rw [ensurePortSuffix_eq, if_neg (not_not.mpr h1), if_neg (fun h => h2 h.1),
            if_neg (fun h => h2 h.1), if_neg h5]
        rw [hr, hr]
  · have hr : ensurePortSuffix host port = host ++ [58] ++ fmt.decimal port := by
      rw [ensurePortSuffix_eq, if_pos h1]
    rw [hr]
    apply ensurePortSuffix_fixed
    · simp
    · exact getLast?_append_decimal _ port
    · right
      have : host.count 58 = 0 := List.count_eq_zero.mpr h1
      simp [List.count_append, hcount, this]

end network

/-! # The mirror URLs of an update -/

namespace omaha

variable {M : Type}

theorem set_length_append {α : Type} (done : List α) (a b : α) (rest : List α) :
    (done ++ a :: rest).set done.length b = done ++ b :: rest := by
  induction done with
  | nil => rfl
  | cons x done ih => simp [List.set, ih]

/-- The loop of `URLs` from index `i` on, with the slots in front of `i`
filled and those from `i` on nil, fills the remaining slots in order. -/
theorem URLsLoop_eq (u : Update M) (prefixes : List GoString) (done : List (Option URL)) :
    URLsLoop u prefixes done.length (done ++ List.replicate prefixes.length none) =
      done ++ prefixes.map (fun p => some ⟨p ++ u.URL.CodeBase⟩) := by
  induction prefixes generalizing done with
  | nil => simp [URLsLoop]
  | cons p rest ih =>
    have h1 : (done ++ List.replicate (p :: rest).length none).set done.length
        (some ⟨p ++ u.URL.CodeBase⟩)
        = (done ++ [some ⟨p ++ u.URL.CodeBase⟩]) ++ List.replicate rest.length none := by
      rw [List.length_cons, List.replicate_succ, set_length_append]
      simp
    have h2 := ih (done ++ [some ⟨p ++ u.URL.CodeBase⟩])
    rw [List.length_append, List.length_singleton] at h2
    rw [URLsLoop, h1, h2]
    simp

/-- C14: for every `Update` `u` and every list of mirror prefixes,
`u.URLs(prefixes)` returns a list as long as `prefixes` whose `i`-th element
points to a `URL` with `CodeBase` equal to `prefixes[i]` followed by
`u.URL.CodeBase`, in the order of the prefixes, and leaves `u` as it was; for
an empty list of prefixes the result is empty. -/
theorem URLs_spec (u : Update M) (prefixes : List GoString) :
    (u.URLs prefixes).2 = prefixes.map (fun p => some ⟨p ++ u.URL.CodeBase⟩) ∧
    (u.URLs prefixes).2.length = prefixes.length ∧
    (∀ (i : Nat) (h : i < prefixes.length),
      (u.URLs prefixes).2[i]? = some (some ⟨prefixes[i] ++ u.URL.CodeBase⟩)) ∧
    (u.URLs prefixes).1 = u ∧
    (u.URLs []).2 = [] := by
  have heq : (u.URLs prefixes).2 = prefixes.map (fun p => some ⟨p ++ u.URL.CodeBase⟩) := by
    have := URLsLoop_eq u prefixes []
    simpa [Update.URLs] using this
  refine ⟨heq, ?_, ?_, rfl, rfl⟩
  · rw [heq, List.length_map]
  · intro i h
    rw [heq]
    simp [List.getElem?_map, List.getElem?_eq_getElem h]

/-- Witness of `URLs_spec`: the relative path `"/u"` on the mirrors `"a"` and
`"b"`. -/
theorem URLs_spec_witness :
    (1 : Nat) < ([[97], [98]] : List GoString).length ∧
    ((⟨([], []), [], [], ⟨[47, 117]⟩, (), false⟩ : Update Unit).URLs [[97], [98]]).2
      = [some ⟨[97, 47, 117]⟩, some ⟨[98, 47, 117]⟩] ∧
    ((⟨([], []), [], [], ⟨[47, 117]⟩, (), false⟩ : Update Unit).URLs [[97], [98]]).2[1]?
      = some (some ⟨[98, 47, 117]⟩) :=
  ⟨by decide,
    (URLs_spec (⟨([], []), [], [], ⟨[47, 117]⟩, (), false⟩ : Update Unit) [[97], [98]]).1,
    (URLs_spec (⟨([], []), [], [], ⟨[47, 117]⟩, (), false⟩ : Update Unit)
      [[97], [98]]).2.2.1 1 (by decide)⟩

end omaha
